import Mathlib

/-!
Verification of the TagZilla core (`glu/modules/tagzilla/tagzilla.py`).

This file gives a shallow embedding of the data model and the operations of
the TagZilla tag-SNP binning engine: the `Bin` candidate-bin class, the
LD-pair scanners (`scan_ldpairs`, `scan_ldpairs_multi`), the haplotype
counter and the monomorphic guard of the LD estimator, the bin builder
(`build_binsets`), the priority-driven binner (`NaiveBinSequence.pop`,
`must_split_bin`, `build_result`), the output helpers (`bin_qualifier`,
`sfloat`) and the tag selector (`TagSelector.select_tags`).

Modelling conventions:
* Python floats are modelled as exact rationals (`ℚ`); the EM iteration of
  `slow_estimate_ld`, whose control flow depends on transcendental
  log-likelihood values, is abstracted as an explicit functional parameter
  (the claims under study only concern the guard that precedes it and the
  values already produced by the estimator).
* Python dicts are modelled as association lists in insertion order;
  `KeyError`, `IndexError`, `ZeroDivisionError`, `AssertionError` and
  `ValueError` are modelled by an explicit error type.
* Genotypes (two-character Python strings with a space for a missing
  allele) are modelled as pairs of characters.
-/

set_option synthInstance.maxSize 512

set_option maxRecDepth 8000

unseal Rat.mul Rat.inv Rat.add Rat.sub Nat.gcd

namespace Tagzilla

/-- Locus names are Python strings. -/
abbrev LName := String

/-- The module-level constant `epsilon = 10e-10` (that is, `1e-9`). -/
def epsilon : ℚ := 1 / 10 ^ 9

/-! ## Output formatting: `sfloat` -/

/-- Rounding to the nearest integer, implemented by integer floor division
so that it evaluates inside the kernel.  `round3_eq_round` below shows it
agrees with Mathlib's `round`. -/
def round3 (q : ℚ) : ℤ := Int.fdiv (2 * q.num + q.den) (2 * q.den)

/-- Zero-padded three-digit rendering of a natural number below `1000`,
matching the fractional digits produced by Python `'%.3f'`. -/
def pad3 (f : Nat) : String :=
  if f < 10 then "00" ++ toString f
  else if f < 100 then "0" ++ toString f
  else toString f

/-- Rendering of a nonnegative rational with exactly three decimals,
modelling `'%.3f' % n` for `n ≥ 0`.  Floats are modelled as exact
rationals rounded to the nearest thousandth. -/
def fmt3nn (n : ℚ) : String :=
  let m := (round3 (n * 1000)).toNat
  toString (m / 1000) ++ "." ++ pad3 (m % 1000)

/-- Signed three-decimal rendering, modelling `'%.3f' % n`. -/
def fmt3 (n : ℚ) : String :=
  if n < 0 then "-" ++ fmt3nn (-n) else fmt3nn n

/-- Python `s.rstrip('0.')`: drop trailing characters drawn from the set
`{'0', '.'}`. -/
def rstripZeroDot (l : List Char) : List Char :=
  (l.reverse.dropWhile (fun c => c == '0' || c == '.')).reverse

/-- Python `s.lstrip('0')`: drop leading `'0'` characters. -/
def lstripZero (l : List Char) : List Char :=
  l.dropWhile (fun c => c == '0')

/-- Embedding of `sfloat`:
`('%.3f' % n).rstrip('0.').lstrip('0') or '0'`. -/
def sfloat (n : ℚ) : String :=
  let r := lstripZero (rstripZeroDot (fmt3 n).data)
  if r.isEmpty then "0" else String.mk r

/-! ## Genotypes and haplotype counting -/

/-- A genotype: two allele characters; `' '` is a missing allele.  The
fully missing genotype has both characters equal to a space. -/
abbrev Geno := Char × Char

/-- The fully missing genotype `'  '`. -/
def missingGeno : Geno := (' ', ' ')

/-- Python `min(g1) + max(g1)`: normalize a genotype so its two allele
characters are in nondecreasing order. -/
def normGeno (g : Geno) : Geno := (min g.1 g.2, max g.1 g.2)

/-- Add one observation to an association-list tally (Python dict
semantics: increment in place, or insert at the end when new). -/
def tallyAdd (acc : List ((Geno × Geno) × Nat)) (k : Geno × Geno) :
    List ((Geno × Geno) × Nat) :=
  match acc with
  | [] => [(k, 1)]
  | (k0, n) :: rest => if k0 = k then (k0, n + 1) :: rest else (k0, n) :: tallyAdd rest k

/-- Embedding of `count_diplotypes`: pair the two genotype vectors, skip
sample pairs in which either side is the fully missing genotype, normalize
each genotype, and tally the resulting diplotypes.  (Python dict iteration
order is unspecified; the tally is kept in first-seen order and every
consumer below is order-independent.) -/
def count_diplotypes (genos1 genos2 : List Geno) : List (Geno × Geno × Nat) :=
  ((genos1.zip genos2).foldl
    (fun acc gg =>
      if gg.1 = missingGeno ∨ gg.2 = missingGeno then acc
      else tallyAdd acc (normGeno gg.1, normGeno gg.2)) []).map
    (fun kn => (kn.1.1, kn.1.2, kn.2))

/-- Insertion of a character into a sorted character list. -/
def insertSorted (c : Char) : List Char → List Char
  | [] => [c]
  | x :: xs => if c ≤ x then c :: x :: xs else x :: insertSorted c xs

/-- Insertion sort for character lists (Python `sorted`). -/
def sortChars (l : List Char) : List Char := l.foldr insertSorted []

/-- Set-like accumulation of allele characters (Python `set.update`),
kept as a duplicate-free list in first-seen order. -/
def addAllele (acc : List Char) (c : Char) : List Char :=
  if c ∈ acc then acc else acc ++ [c]

/-- Embedding of `find_hetz`: sort the allele set, drop the missing-allele
spaces, raise `ValueError` (modelled by `none`) on more than two alleles,
and pad with NUL characters up to length two. -/
def find_hetz (alleles : List Char) : Option Geno :=
  let het := (sortChars alleles).filter (fun c => c != ' ')
  if 2 < het.length then none
  else some (het.getD 0 '\x00', het.getD 1 '\x00')

/-- Collection of the allele characters of the first locus over the
tallied diplotypes (the set `a1` of `find_heterozygotes`). -/
def alleles1 (dc : List (Geno × Geno × Nat)) : List Char :=
  dc.foldl (fun acc d => addAllele (addAllele acc d.1.1) d.1.2) []

/-- Collection of the allele characters of the second locus over the
tallied diplotypes (the set `a2` of `find_heterozygotes`). -/
def alleles2 (dc : List (Geno × Geno × Nat)) : List Char :=
  dc.foldl (fun acc d => addAllele (addAllele acc d.2.1.1) d.2.1.2) []

/-- Embedding of `find_heterozygotes`: collect the allele characters of
each locus over the tallied diplotypes and find both exemplar
heterozygotes. -/
def find_heterozygotes (dc : List (Geno × Geno × Nat)) : Option (Geno × Geno) :=
  match find_hetz (alleles1 dc), find_hetz (alleles2 dc) with
  | some het1, some het2 => some (het1, het2)
  | _, _ => none

/-- Reversal of a half-missing genotype so that its second character lines
up with the heterozygote: `if ' ' in g and g[1] != het[1]: g = g[::-1]`. -/
def orient (g het : Geno) : Geno :=
  if (g.1 = ' ' ∨ g.2 = ' ') ∧ g.2 ≠ het.2 then (g.2, g.1) else g

/-- The doubling rule of the tally loop: homozygote configurations with no
missing allele count twice
(`if ' ' not in g1+g2 and g1 != het1 and g2 != het2: n *= 2`). -/
def hapWeight (het1 het2 g1 g2 : Geno) (n : Nat) : Nat :=
  if (g1.1 ≠ ' ' ∧ g1.2 ≠ ' ' ∧ g2.1 ≠ ' ' ∧ g2.2 ≠ ' ') ∧
     g1 ≠ het1 ∧ g2 ≠ het2 then 2 * n else n

/-- One iteration of the tally loop of `slow_count_haplotypes`,
accumulating `(c11, c12, c21, c22, dh)`: record the double-heterozygote
count, orient half-missing genotypes against the heterozygotes, double
fully-observed non-heterozygote configurations, and add the weight to
every matching allele-configuration class
(indices `[(0,0),(0,1),(1,0),(1,1)]`). -/
def hapStep (het1 het2 : Geno) (x : Nat × Nat × Nat × Nat × Nat)
    (d : Geno × Geno × Nat) : Nat × Nat × Nat × Nat × Nat :=
  if d.1 = het1 ∧ d.2.1 = het2 then (x.1, x.2.1, x.2.2.1, x.2.2.2.1, d.2.2)
  else
    let g1 := orient d.1 het1
    let g2 := orient d.2.1 het2
    let n := hapWeight het1 het2 g1 g2 d.2.2
    (x.1 + (if g1.1 = het1.1 ∧ g2.1 = het2.1 then n else 0),
     x.2.1 + (if g1.1 = het1.1 ∧ g2.2 = het2.2 then n else 0),
     x.2.2.1 + (if g1.2 = het1.2 ∧ g2.1 = het2.1 then n else 0),
     x.2.2.2.1 + (if g1.2 = het1.2 ∧ g2.2 = het2.2 then n else 0),
     x.2.2.2.2)

/-- Embedding of `slow_count_haplotypes`: a length mismatch or a locus
with more than two observed alleles raises `ValueError` (modelled by
`none`); otherwise the result is `(c11, c12, c21, c22, dh)`. -/
def slow_count_haplotypes (genos1 genos2 : List Geno) :
    Option (Nat × Nat × Nat × Nat × Nat) :=
  if genos1.length ≠ genos2.length then none
  else
    let dc := count_diplotypes genos1 genos2
    match find_heterozygotes dc with
    | some het => some (dc.foldl (hapStep het.1 het.2) (0, 0, 0, 0, 0))
    | none => none

/-- Embedding of `slow_estimate_ld`.  The monomorphic-marker guard
(`information = (c11+c12, c21+c22, c11+c21, c12+c22)`;
`if not dh and 0 in information: return 0., 0.`) is translated exactly.
The EM iteration that follows — floating-point arithmetic whose control
flow depends on transcendental log-likelihood values — is abstracted as
the explicit parameter `em`, which receives the five counts whenever the
guard does not fire. -/
def slow_estimate_ld (em : Nat → Nat → Nat → Nat → Nat → ℚ × ℚ)
    (c11 c12 c21 c22 dh : Nat) : ℚ × ℚ :=
  if dh = 0 ∧ (c11 + c12 = 0 ∨ c21 + c22 = 0 ∨ c11 + c21 = 0 ∨ c12 + c22 = 0) then
    (0, 0)
  else em c11 c12 c21 c22 dh

/-- A locus is monomorphic when every observed (non-missing) allele in its
genotype vector is the single allele `a`. -/
abbrev MonomorphicAllele (genos : List Geno) (a : Char) : Prop :=
  ∀ g ∈ genos, (g.1 ≠ ' ' → g.1 = a) ∧ (g.2 ≠ ' ' → g.2 = a)

/-- Genotype data never contains the NUL character, which the source
reserves as the `find_hetz` padding value. -/
abbrev NoNullAllele (genos : List Geno) : Prop :=
  ∀ g ∈ genos, g.1 ≠ '\x00' ∧ g.2 ≠ '\x00'

/-! ## The `Bin` class -/

/-- Python `set.add` on a set modelled as a duplicate-free list (Python
set iteration order is unspecified; first-insertion order is used). -/
def setAdd {α : Type} [DecidableEq α] (s : List α) (x : α) : List α :=
  if x ∈ s then s else s ++ [x]

/-- Embedding of the `Bin` class: a set of locus names plus a running MAF
accumulator, a disposition code and the high-water mark `maxcovered`.
The disposition codes are the class constants `INCLUDE_UNTYPED = -2`,
`INCLUDE_TYPED = -1`, `NORMAL = 0`, `EXCLUDE = 2`.  The member set is
modelled as a duplicate-free list. -/
structure Bin where
  members : List LName
  maf : ℚ
  disposition : Int
  maxcovered : Nat
deriving DecidableEq

/-- Class constant `Bin.INCLUDE_UNTYPED`. -/
def Bin.INCLUDE_UNTYPED : Int := -2

/-- Class constant `Bin.INCLUDE_TYPED`. -/
def Bin.INCLUDE_TYPED : Int := -1

/-- Class constant `Bin.NORMAL`. -/
def Bin.NORMAL : Int := 0

/-- Class constant `Bin.EXCLUDE`. -/
def Bin.EXCLUDE : Int := 2

/-- The `Bin` constructor: `maxcovered = max(maxcovered, len(self))`.
Passing Python `None` for `maxcovered` is modelled by `0`, matching
`max(None, n) = n`; passing `None` for `maf` is modelled by `0`. -/
def Bin.make (iterable : List LName) (maf : ℚ) (disposition : Int)
    (maxcovered : Nat) : Bin :=
  { members := iterable, maf := maf, disposition := disposition,
    maxcovered := max maxcovered iterable.length }

/-- Embedding of `Bin.add`: `set.add` (a no-op when the name is already a
member), update of `maxcovered`, and an unconditional MAF accumulation. -/
def Bin.add (b : Bin) (lname : LName) (maf : ℚ) : Bin :=
  let members := setAdd b.members lname
  { b with members := members,
           maxcovered := max b.maxcovered members.length,
           maf := b.maf + maf }

/-- Embedding of `Bin.remove`: `set.remove` raises `KeyError` when the name
is absent (modelled by `none`), in which case the MAF update on the next
line of the method is never executed. -/
def Bin.remove (b : Bin) (lname : LName) (maf : ℚ) : Option Bin :=
  if lname ∈ b.members then
    some { b with members := b.members.erase lname, maf := b.maf - maf }
  else none

/-- Embedding of `Bin.discard`: remove the name only when present. -/
def Bin.discard (b : Bin) (lname : LName) (maf : ℚ) : Bin :=
  if lname ∈ b.members then
    { b with members := b.members.erase lname, maf := b.maf - maf }
  else b

/-- Embedding of `Bin.average_maf`: `float(self.maf) / len(self)`. -/
def Bin.average_maf (b : Bin) : ℚ := b.maf / b.members.length

/-- Embedding of `Bin.priority`: the tuple `(disposition, -len(self), -maf)`
compared lexicographically. -/
def Bin.priority (b : Bin) : Int × Int × ℚ :=
  (b.disposition, -(b.members.length : Int), -b.maf)

/-! ## Loci and the LD-pair scanners -/

/-- Embedding of the `Locus` value object: name, base-pair location, MAF
(precomputed by the constructor through `estimate_maf`) and the genotype
vector. -/
structure Locus where
  name : LName
  location : Int
  maf : ℚ
  genos : List Geno
deriving DecidableEq

instance : Inhabited Locus := ⟨⟨"", 0, 0, []⟩⟩

/-- The inner window loop of `scan_ldpairs` for a fixed left locus: walk
the loci that follow it, break at the first one farther than `maxd` base
pairs, estimate LD, and yield the pair when both thresholds are met
(`r2 >= rthreshold and abs(dprime) >= dthreshold`).  The parameter `est`
stands for the composite `estimate_ld(*count_haplotypes(g1, g2))` of the
source: the EM numerics are abstracted, and the guard conditions on the
values it returns are translated exactly. -/
def scanInner (est : List Geno → List Geno → ℚ × ℚ) (locus1 : Locus)
    (rest : List Locus) (maxd : Int) (rthreshold dthreshold : ℚ) :
    List (LName × LName × ℚ × ℚ) :=
  (rest.takeWhile (fun locus2 => locus2.location - locus1.location ≤ maxd)).filterMap
    (fun locus2 =>
      let rd := est locus1.genos locus2.genos
      if rthreshold ≤ rd.1 ∧ dthreshold ≤ |rd.2| then
        some (locus1.name, locus2.name, rd.1, rd.2)
      else none)

/-- Embedding of `scan_ldpairs`: for every index `i` in order, scan the
window of indices `j > i` and concatenate the yields. -/
def scan_ldpairs (est : List Geno → List Geno → ℚ × ℚ) :
    List Locus → Int → ℚ → ℚ → List (LName × LName × ℚ × ℚ)
  | [], _, _, _ => []
  | locus1 :: rest, maxd, rth, dth =>
      scanInner est locus1 rest maxd rth dth ++ scan_ldpairs est rest maxd rth dth

/-- The tuple `(name_i, name_j, r2, dprime)` produced for the index pair
`(i, j)` of a locus list. -/
def emitAt (est : List Geno → List Geno → ℚ × ℚ) (loci : List Locus)
    (ij : Nat × Nat) : LName × LName × ℚ × ℚ :=
  let l1 := loci.getD ij.1 default
  let l2 := loci.getD ij.2 default
  let rd := est l1.genos l2.genos
  (l1.name, l2.name, rd.1, rd.2)

/-- Strict lexicographic order on index pairs. -/
def IdxLt (p q : Nat × Nat) : Prop := p.1 < q.1 ∨ (p.1 = q.1 ∧ p.2 < q.2)

/-- Location of the first entry of a merged multi-population row
(`loci[i][0].location`).  Rows produced by `merge_multi_loci` are never
empty; the unreachable empty row is given location `0` to keep the
function total. -/
def rowLocation (row : List Locus) : Int :=
  match row with
  | [] => 0
  | l :: _ => l.location

/-- The per-row accumulation loop of `scan_ldpairs_multi`: walk the zipped
per-population thresholds and locus pairs, skip populations in which
either locus has no genotype data (`continue`), accumulate the running
minima of r² and D′, and stop early with `good = False` as soon as one
population misses its thresholds
(`if r2_pop < rth or abs(dprime_pop) < dth`).  Thresholds are the pairs
`(options.d, options.r)`, that is `(dth, rth)`. -/
def minldFold (est : List Geno → List Geno → ℚ × ℚ) :
    List ((ℚ × ℚ) × Locus × Locus) → ℚ × ℚ → ℚ × ℚ × Bool
  | [], rd => (rd.1, rd.2, true)
  | (th, l1, l2) :: rest, rd =>
    if l1.genos = [] ∨ l2.genos = [] then minldFold est rest rd
    else
      let rp := est l1.genos l2.genos
      let rd2 : ℚ × ℚ := (min rd.1 rp.1, min rd.2 rp.2)
      if rp.1 < th.2 ∨ |rp.2| < th.1 then (rd2.1, rd2.2, false)
      else minldFold est rest rd2

/-- Emission decision of `scan_ldpairs_multi` for one row pair: starting
from the sentinel minima `(10, 10)`, run the loop over the zip of the
thresholds and the two rows; emit — named after the loop variables left by
the last zipped population, as in the source — exactly when at least one
population contributed (`r2 < 10`) and every checked population met its
thresholds (`good`). -/
def minldEmit (est : List Geno → List Geno → ℚ × ℚ) (ths : List (ℚ × ℚ))
    (rowi rowj : List Locus) : Option (LName × LName × ℚ × ℚ) :=
  let z := ths.zip (rowi.zip rowj)
  let r := minldFold est z (10, 10)
  match z.getLast? with
  | some e =>
      if r.1 < 10 ∧ r.2.2 = true then some (e.2.1.name, e.2.2.name, r.1, r.2.1)
      else none
  | none => none

/-- Embedding of `scan_ldpairs_multi`, taken over the materialized merged
rows (its first statement is `loci = list(merge_multi_loci(loci))`; the
merged rows, one list of per-population loci per position, are the input
here).  For every row index `i` in order, scan the window of rows `j > i`
(breaking at the first row farther than `maxd` from row `i`, measured on
the representative index-0 loci) and run the minld emission decision. -/
def scan_ldpairs_multi (est : List Geno → List Geno → ℚ × ℚ)
    (ths : List (ℚ × ℚ)) :
    List (List Locus) → Int → List (LName × LName × ℚ × ℚ)
  | [], _ => []
  | row1 :: rest, maxd =>
      ((rest.takeWhile (fun row2 => rowLocation row2 - rowLocation row1 ≤ maxd)).filterMap
        (fun row2 => minldEmit est ths row1 row2))
        ++ scan_ldpairs_multi est ths rest maxd

/-! ## The bin builder and the priority-driven binner -/

/-- Python exceptions raised by the binner layers. -/
inductive Err where
  | keyError
  | indexError
  | zeroDivision
  | assertFail
  | internalError
deriving DecidableEq

/-- The `Includes` container of obligate tags (sets modelled as
duplicate-free lists). -/
structure Includes where
  typed : List LName
  untyped : List LName
deriving DecidableEq

/-- The `Includes` constructor enforces disjointness:
`self.typed = typed - untyped`. -/
def Includes.make (typed untyped : List LName) : Includes :=
  { typed := typed.filter (fun x => decide (x ∉ untyped)), untyped := untyped }

/-- The locus table consumed by the binner, as locus name to MAF: the
binner reads only `loci[lname].maf` from the stored `Locus` objects, so
the map is modelled directly on the MAFs. -/
abbrev LocusMap := List (LName × ℚ)

/-- Lookup of `loci[lname].maf`; a missing name raises `KeyError`. -/
def mafOf (loci : LocusMap) (lname : LName) : Except Err ℚ :=
  match loci.lookup lname with
  | some m => .ok m
  | none => .error .keyError

/-- The mutable `binsets` dict, modelled as an association list in
insertion order with unique keys. -/
abbrev Binsets := List (LName × Bin)

/-- The `lddata` dict: a locus pair in scan orientation mapped to
`(r2, dprime)`. -/
abbrev LDData := List ((LName × LName) × (ℚ × ℚ))

/-- In-place update of the bin stored under a present key. -/
def updateBin (bs : Binsets) (k : LName) (f : Bin → Bin) : Binsets :=
  bs.map (fun p => if p.1 = k then (p.1, f p.2) else p)

/-- Python `dict.pop`: return the binding and the shrunken dict; a missing
key raises `KeyError`. -/
def popBin (bs : Binsets) (k : LName) : Except Err (Bin × Binsets) :=
  match bs.lookup k with
  | some b => .ok (b, bs.filter (fun p => p.1 != k))
  | none => .error .keyError

/-- Strict lexicographic comparison of bin priorities
`(disposition, -size, -maf)`. -/
abbrev prioLt (p q : Int × Int × ℚ) : Prop :=
  p.1 < q.1 ∨ (p.1 = q.1 ∧ (p.2.1 < q.2.1 ∨ (p.2.1 = q.2.1 ∧ p.2.2 < q.2.2)))

/-- Embedding of `NaiveBinSequence.peek`: a linear scan keeping the first
bin of minimal priority (the current best is replaced only on a strictly
smaller priority). -/
def peek (bs : Binsets) : Option LName :=
  match bs with
  | [] => none
  | (k, b) :: rest =>
      some ((rest.foldl (fun best p =>
        if prioLt p.2.priority best.2 then (p.1, p.2.priority) else best)
        (k, b.priority)).1)

/-- Embedding of `can_tag`: the candidate bin may not be an exclude bin
unless the reference is, and the candidate's members must be a superset of
the reference's (`bin.issuperset(reference)`). -/
def can_tag (bin reference : Bin) : Prop :=
  (bin.disposition ≠ Bin.EXCLUDE ∨ reference.disposition = Bin.EXCLUDE) ∧
  ∀ x ∈ reference.members, x ∈ bin.members

instance (bin reference : Bin) : Decidable (can_tag bin reference) :=
  inferInstanceAs (Decidable ((bin.disposition ≠ Bin.EXCLUDE ∨
    reference.disposition = Bin.EXCLUDE) ∧ ∀ x ∈ reference.members, x ∈ bin.members))

/-- One member tested by the comprehension
`[lname for lname in bin if can_tag(binsets[lname], bin)]` of
`must_split_bin`; a member without a binset entry raises `KeyError`. -/
def listTagStep (binsets : Binsets) (bin : Bin) (lname : LName)
    (acc : Except Err (List LName)) : Except Err (List LName) := do
  let tl ← acc
  match binsets.lookup lname with
  | none => .error .keyError
  | some b => if can_tag b bin then .ok (lname :: tl) else .ok tl

/-- The comprehension
`[lname for lname in bin if can_tag(binsets[lname], bin)]` of
`must_split_bin`. -/
def listTags (binsets : Binsets) (bin : Bin) : Except Err (List LName) :=
  bin.members.foldr (listTagStep binsets bin) (.ok [])

/-- Embedding of `must_split_bin`: with a `tags_required` policy in force
and more than one tag required, the bin must split when fewer members than
required can tag it while the requirement does not exceed the bin size
(`len(tags) < tags_required <= len(bin)`). -/
def must_split_bin (bin : Bin) (binsets : Binsets)
    (get_tags_required : Option (Nat → Nat)) : Except Err Bool :=
  match get_tags_required with
  | none => .ok false
  | some f =>
    let tags_required := f bin.members.length
    if tags_required = 1 then .ok false
    else do
      let tags ← listTags binsets bin
      .ok (decide (tags.length < tags_required ∧ tags_required ≤ bin.members.length))

/-- Embedding of `NaiveBinSequence.reduce_bin`: discard the taken locus
from the other locus's candidate bin when that bin still exists. -/
def reduce_bin (binsets : Binsets) (other_locus taken_locus : LName) (maf : ℚ) :
    Binsets :=
  if (binsets.lookup other_locus).isSome then
    updateBin binsets other_locus (fun b => b.discard taken_locus maf)
  else binsets

/-- One `(-covered, r2, lname)` sort key built by `split_bin`; a pair
absent from `lddata` in both orientations raises `KeyError`. -/
def splitKeyStep (binsets : Binsets) (lddata : LDData) (ref_lname : LName)
    (lname : LName) (acc : Except Err (List (Int × ℚ × LName))) :
    Except Err (List (Int × ℚ × LName)) := do
  let tl ← acc
  let covered : Int :=
    ((binsets.lookup lname).map (fun b => (b.members.length : Int))).getD 0
  match lddata.lookup (ref_lname, lname) with
  | some rd => .ok ((-covered, rd.1, lname) :: tl)
  | none =>
    match lddata.lookup (lname, ref_lname) with
    | some rd => .ok ((-covered, rd.1, lname) :: tl)
    | none => .error .keyError

/-- The `(-covered, r2, lname)` sort keys built by `split_bin` over the
non-reference members. -/
def splitKeys (binsets : Binsets) (lddata : LDData) (ref_lname : LName)
    (bin : Bin) : Except Err (List (Int × ℚ × LName)) :=
  (bin.members.filter (fun l => l != ref_lname)).foldr
    (splitKeyStep binsets lddata ref_lname) (.ok [])

/-- Python tuple order on the split sort keys. -/
abbrev keyLe (a b : Int × ℚ × LName) : Prop :=
  a.1 < b.1 ∨ (a.1 = b.1 ∧ (a.2.1 < b.2.1 ∨ (a.2.1 = b.2.1 ∧ a.2.2 ≤ b.2.2)))

/-- Insertion into a key-sorted list. -/
def insertKey (a : Int × ℚ × LName) : List (Int × ℚ × LName) → List (Int × ℚ × LName)
  | [] => [a]
  | b :: t => if keyLe a b then a :: b :: t else b :: insertKey a t

/-- Ascending sort of the split keys (Python `list.sort`). -/
def sortKeys (l : List (Int × ℚ × LName)) : List (Int × ℚ × LName) :=
  l.foldr insertKey []

/-- Embedding of `NaiveBinSequence.split_bin`: sort the non-reference
members by `(-covered, r2, lname)` and withdraw the member with the
smallest key from the reference bin, and the reference from that member's
bin.  An empty key list raises `IndexError` (`ld[0]`). -/
def split_bin (loci : LocusMap) (binsets : Binsets) (lddata : LDData)
    (ref_lname : LName) (bin : Bin) : Except Err Binsets := do
  let ld ← splitKeys binsets lddata ref_lname bin
  match sortKeys ld with
  | [] => .error .indexError
  | (_, _, lname) :: _ => do
    let maf1 ← mafOf loci lname
    let bs1 := reduce_bin binsets ref_lname lname maf1
    let maf2 ← mafOf loci ref_lname
    .ok (reduce_bin bs1 lname ref_lname maf2)

/-- The withdrawal loop of `NaiveBinSequence.pop`: pop the candidate bin
of every member of the selected bin, collecting them in order into the
`bins` dict, and discard each popped member from every other candidate bin
it refers to (`for lname2 in bin - largest`). -/
def popLoop (loci : LocusMap) (largest : List LName) :
    List LName → Binsets → Except Err (List (LName × Bin) × Binsets)
  | [], bs => .ok ([], bs)
  | lname :: rest, bs => do
    let (bin, bs1) ← popBin bs lname
    let maf ← mafOf loci lname
    let bs2 := (bin.members.filter (fun x => decide (x ∉ largest))).foldl
      (fun acc lname2 => reduce_bin acc lname2 lname maf) bs1
    let (bins, bs3) ← popLoop loci largest rest bs2
    .ok ((lname, bin) :: bins, bs3)

/-- Embedding of `BinResult` with the fields assigned by `build_result`.
The Python attribute `include` is spelled `include_`; `binnum` is assigned
later by the driver loop and is passed separately where needed. -/
structure BinResult where
  tags : List LName
  others : List LName
  tags_required : Nat
  average_maf : ℚ
  include_ : Option LName
  ld : List (LName × LName × ℚ × ℚ)
  disposition : String
  maxcovered : Nat
  recommended_tags : List LName
  include_typed : List LName
deriving DecidableEq

/-- Embedding of `pair_generator`: unique pairs `(bins[i], bins[j])` with
`j < i`, in increasing `i`. -/
def pair_generator_aux {α : Type} (prev : List α) : List α → List (α × α)
  | [] => []
  | x :: rest => prev.map (fun y => (x, y)) ++ pair_generator_aux (prev ++ [x]) rest

/-- Embedding of `pair_generator` over a materialized member list. -/
def pair_generator {α : Type} (l : List α) : List (α × α) :=
  pair_generator_aux [] l

/-- One step of the lddata consumption of `build_result`: try the pair in
the given orientation, else swapped; when present, pop it and append the
record. -/
def ldPop (acc : List (LName × LName × ℚ × ℚ) × LDData) (l1 l2 : LName) :
    List (LName × LName × ℚ × ℚ) × LDData :=
  let key := if (acc.2.lookup (l1, l2)).isSome then (l1, l2) else (l2, l1)
  match acc.2.lookup key with
  | some rd => (acc.1 ++ [(key.1, key.2, rd.1, rd.2)],
                acc.2.filter (fun p => p.1 != key))
  | none => acc

/-- The disposition string assigned by `build_result`. -/
def dispositionString (d : Int) : String :=
  if d = Bin.INCLUDE_UNTYPED then "obligate-untyped"
  else if d = Bin.INCLUDE_TYPED then "obligate-typed"
  else if d = Bin.EXCLUDE then "obligate-exclude"
  else "maximal-bin"

/-- The tags/others partition loop of `build_result`, walking the popped
`bins` in order and carrying `(tags, others, maxcovered)`: a member whose
own bin can tag the reference is a tag (updating `maxcovered` except for
obligate-include bins); otherwise it is an other. -/
def buildTags (largest : Bin) (bins : List (LName × Bin)) :
    List LName × List LName × Nat :=
  bins.foldl (fun acc p =>
    if can_tag p.2 largest then
      (acc.1 ++ [p.1], acc.2.1,
       if largest.disposition = Bin.INCLUDE_TYPED ∨
          largest.disposition = Bin.INCLUDE_UNTYPED then acc.2.2
       else max acc.2.2 p.2.maxcovered)
    else (acc.1, acc.2.1 ++ [p.1], acc.2.2)) ([], [], largest.maxcovered)

/-- Embedding of `build_result`.  `average_maf` on an empty bin raises
`ZeroDivisionError`; the assertion `len(result.tags) >= result.tags_required`
raises `AssertionError` when violated; the intra-bin LD pairs are popped
from `lddata` over `pair_generator(largest)` and the mutated `lddata` is
returned alongside the result. -/
def build_result (lname : LName) (largest : Bin) (bins : List (LName × Bin))
    (lddata : LDData) (includes : Includes)
    (get_tags_required : Option (Nat → Nat)) : Except Err (BinResult × LDData) :=
  let tags_required := match get_tags_required with
    | some f => f largest.members.length
    | none => 1
  if largest.members.length = 0 then .error .zeroDivision
  else
    let t3 := buildTags largest bins
    if t3.1.length < tags_required then .error .assertFail
    else
      let selfld := t3.1.map (fun t => (t, t, (1 : ℚ), (1 : ℚ)))
      let pf := (pair_generator largest.members).foldl
        (fun acc p => ldPop acc p.1 p.2) ([], lddata)
      .ok ({ tags := t3.1, others := t3.2.1, tags_required := tags_required,
             average_maf := largest.maf / largest.members.length,
             include_ := if largest.disposition = Bin.INCLUDE_TYPED ∨
                            largest.disposition = Bin.INCLUDE_UNTYPED
                         then some lname else none,
             ld := selfld ++ pf.1,
             disposition := dispositionString largest.disposition,
             maxcovered := t3.2.2,
             recommended_tags := [],
             include_typed := includes.typed.filter
               (fun x => decide (x ∈ largest.members)) },
           pf.2)

/-- Outcome of a binner run: the stream completed (`StopIteration` on
empty binsets), ran out of modelling fuel, or raised an exception; in
every case the results emitted so far are carried. -/
inductive RunOut where
  | done (results : List BinResult)
  | fuelOut (results : List BinResult)
  | err (e : Err) (results : List BinResult)
deriving DecidableEq

/-- Embedding of the binner loop (`binner` driving
`NaiveBinSequence.pop` and `build_result`).  The inner while-loop of
`pop` is flattened into the recursion: each round either performs one
`split_bin` on the currently selected reference (when `must_split_bin`
holds) and reselects, or pops the selected bin and emits `build_result`.
`fuel` bounds the number of rounds; every round strictly shrinks the
state, so all sufficiently large fuels agree. -/
def runBinner (loci : LocusMap) (includes : Includes)
    (get_tags_required : Option (Nat → Nat)) :
    Nat → Binsets → LDData → RunOut
  | 0, bs, _ => if bs.isEmpty then .done [] else .fuelOut []
  | fuel + 1, bs, ld =>
    match peek bs with
    | none => .done []
    | some ref =>
      match bs.lookup ref with
      | none => .err .keyError []
      | some largest =>
        match must_split_bin largest bs get_tags_required with
        | .error e => .err e []
        | .ok true =>
          match split_bin loci bs ld ref largest with
          | .error e => .err e []
          | .ok bs2 => runBinner loci includes get_tags_required fuel bs2 ld
        | .ok false =>
          match popLoop loci largest.members largest.members bs with
          | .error e => .err e []
          | .ok (bins, bs2) =>
            match build_result ref largest bins ld includes get_tags_required with
            | .error e => .err e []
            | .ok (result, ld2) =>
              match runBinner loci includes get_tags_required fuel bs2 ld2 with
              | .done rs => .done (result :: rs)
              | .fuelOut rs => .fuelOut (result :: rs)
              | .err e rs => .err e (result :: rs)

/-- Python dict assignment `lddata[lname1, lname2] = r2, dprime`. -/
def ldAssign (ld : LDData) (k : LName × LName) (v : ℚ × ℚ) : LDData :=
  if (ld.lookup k).isSome then ld.map (fun p => if p.1 = k then (k, v) else p)
  else ld ++ [(k, v)]

/-- One LD pair consumed by `build_binsets`: create missing candidate
bins, record the pair in `lddata`, and extend both bins with the partner
locus (`KeyError`, modelled by `none`, when a pair names a locus outside
the locus map). -/
def bbPair (loci : LocusMap) (st : Binsets × LDData)
    (t : LName × LName × ℚ × ℚ) : Option (Binsets × LDData) := do
  let lname1 := t.1
  let lname2 := t.2.1
  let maf1 ← loci.lookup lname1
  let maf2 ← loci.lookup lname2
  let bs1 := if (st.1.lookup lname1).isSome then st.1
             else st.1 ++ [(lname1, Bin.make [lname1] maf1 Bin.NORMAL 0)]
  let bs2 := if (bs1.lookup lname2).isSome then bs1
             else bs1 ++ [(lname2, Bin.make [lname2] maf2 Bin.NORMAL 0)]
  let ld2 := ldAssign st.2 (lname1, lname2) (t.2.2.1, t.2.2.2)
  let bs3 := updateBin bs2 lname1 (fun b => b.add lname2 maf2)
  let bs4 := updateBin bs3 lname2 (fun b => b.add lname1 maf1)
  some (bs4, ld2)

/-- One name handled by the untyped-obligate pass of `build_binsets`:
mark the obligate's bin `INCLUDE_UNTYPED` and remove every other untyped
obligate from it (`binsets[lname].remove(lname2, loci[lname2].maf)`). -/
def bbUStep (loci : LocusMap) (untyped : List LName) (bs : Binsets)
    (lname : LName) : Option Binsets :=
  match bs.lookup lname with
  | none => some bs
  | some bin0 => do
    let bin1 := { bin0 with disposition := Bin.INCLUDE_UNTYPED }
    let bin2 ← ((untyped.filter (fun x => decide (x ∈ bin1.members))).foldlM
      (fun (b : Bin) lname2 =>
        if lname ≠ lname2 then do
          let maf2 ← loci.lookup lname2
          b.remove lname2 maf2
        else some b) bin1)
    some (updateBin bs lname (fun _ => bin2))

/-- The untyped-obligate pass of `build_binsets`, one `bbUStep` per
untyped obligate. -/
def bbUntyped (loci : LocusMap) (untyped : List LName) (bs : Binsets) :
    Option Binsets :=
  untyped.foldlM (bbUStep loci untyped) bs

/-- Embedding of `build_binsets`.  Inputs: the locus map, the LD-pair
streams, the obligate `includes`, the (mutable) `exclude` set and the
design scores (`[]` models the absent, falsy `designscores`).  Returns
`(binsets, lddata, exclude')`: pair consumption, singleton creation,
exclude marking, design-score exclusion (which also grows the exclude
set), the untyped-obligate pass and the typed-obligate pass, in source
order. -/
def build_binsets (loci : LocusMap)
    (ldpairs : List (List (LName × LName × ℚ × ℚ))) (includes : Includes)
    (exclude : List LName) (designscores : List (LName × ℚ)) :
    Option (Binsets × LDData × List LName) := do
  let st1 ← ldpairs.foldlM (fun st pairs => pairs.foldlM (bbPair loci) st) ([], [])
  let bs2 := loci.foldl (fun bs p =>
      if (bs.lookup p.1).isSome then bs
      else bs ++ [(p.1, Bin.make [p.1] p.2 Bin.NORMAL 0)]) st1.1
  let bs3 := exclude.foldl (fun bs lname =>
      if (bs.lookup lname).isSome then
        updateBin bs lname (fun b => { b with disposition := Bin.EXCLUDE })
      else bs) bs2
  let bs4 := if designscores.isEmpty then bs3 else
      bs3.map (fun p =>
        if (designscores.lookup p.1).getD 0 < epsilon then
          (p.1, { p.2 with disposition := Bin.EXCLUDE })
        else p)
  let exclude2 := if designscores.isEmpty then exclude else
      ((bs3.filter (fun p =>
        decide ((designscores.lookup p.1).getD 0 < epsilon))).map Prod.fst).foldl
        setAdd exclude
  let bs5 ← bbUntyped loci includes.untyped bs4
  let bs6 := includes.typed.foldl (fun bs lname =>
      if (bs.lookup lname).isSome then
        updateBin bs lname (fun b => { b with disposition := Bin.INCLUDE_TYPED })
      else bs) bs5
  some (bs6, st1.2, exclude2)

/-- The `--locipertag` requirement function of
`get_tags_required_function`: `lambda n: min(int(n//options.locipertag)+1,n)`
(the option is declared with `type='int'`). -/
def lociPerTagReq (L : ℕ) (n : ℕ) : ℕ := min (n / L + 1) n

/-- The `--loglocipertag` requirement function of
`get_tags_required_function`: `lambda n: int(ceil(log(n+1)/l))` with
`l = log(options.loglocipertag)`.  The float base is modelled as a real;
`Int.toNat` clamps the nonpositive requirements produced by bases below
`1` to `0`, as the `Nat`-valued requirement interface demands. -/
noncomputable def logLociPerTagReq (B : ℝ) (n : ℕ) : ℕ :=
  (⌈Real.log ((n : ℝ) + 1) / Real.log B⌉).toNat

/-! ## The tag selector -/

/-- Python dict assignment on a weight table. -/
def wSet (w : List (LName × ℚ)) (k : LName) (v : ℚ) : List (LName × ℚ) :=
  if (w.lookup k).isSome then w.map (fun p => if p.1 = k then (k, v) else p)
  else w ++ [(k, v)]

/-- The per-pair weight update of `TagSelector.build_weights`, dispatching
on the (lowercased) criterion name: `maxsnp` keeps the minimum r², `avgsnp`
sums r², and the `tag` variants apply only when the partner is not a tag. -/
def applyCriterion (tags : List LName) (method : String) (w : List (LName × ℚ))
    (x y : LName) (r2 : ℚ) : List (LName × ℚ) :=
  if method = "maxsnp" then wSet w x (min ((w.lookup x).getD 1) r2)
  else if method = "avgsnp" then wSet w x ((w.lookup x).getD 0 + r2)
  else if method = "maxtag" then
    (if y ∈ tags then w else wSet w x (min ((w.lookup x).getD 1) r2))
  else
    (if y ∈ tags then w else wSet w x ((w.lookup x).getD 0 + r2))

/-- Embedding of `TagSelector.build_weights`: an empty (falsy) method
yields no weights; an unknown criterion raises `InternalError`; otherwise
accumulate over the non-self LD pairs in both orientations for tag
members, and down-weight by `1/weight` every tag farther than `1e-10`
from the maximal criterion value (`w[tag]` raising `KeyError` for a tag
with no accumulated value). -/
def build_weights (binR : BinResult) (method : String) (weight : ℚ) :
    Except Err (List (LName × ℚ)) :=
  if method = "" then .ok []
  else if ¬(method.toLower = "maxsnp" ∨ method.toLower = "avgsnp" ∨
            method.toLower = "maxtag" ∨ method.toLower = "avgtag") then
    .error .internalError
  else
    let m := method.toLower
    let w := binR.ld.foldl (fun w q =>
      if q.1 = q.2.1 then w
      else
        let w1 := if q.1 ∈ binR.tags then
            applyCriterion binR.tags m w q.1 q.2.1 q.2.2.1 else w
        if q.2.1 ∈ binR.tags then
            applyCriterion binR.tags m w1 q.2.1 q.1 q.2.2.1 else w1) []
    match w with
    | [] => .ok []
    | (k0, v0) :: rest =>
      let maxval := rest.foldl (fun mx p => max mx p.2) v0
      (binR.tags.foldlM (fun acc tag =>
        match ((k0, v0) :: rest).lookup tag with
        | none => .error .keyError
        | some wv =>
          if (1 : ℚ) / 10 ^ 10 < |wv - maxval| then .ok (acc ++ [(tag, 1 / weight)])
          else .ok acc) ([] : List (LName × ℚ)))

/-- Python descending tuple order used by `scores.sort(reverse=True)`. -/
abbrev scoreLt (a b : ℚ × LName) : Prop := a.1 < b.1 ∨ (a.1 = b.1 ∧ a.2 < b.2)

/-- Insertion into a descending score list. -/
def insertScoreDesc (a : ℚ × LName) : List (ℚ × LName) → List (ℚ × LName)
  | [] => [a]
  | b :: t => if scoreLt b a then a :: b :: t else b :: insertScoreDesc a t

/-- Descending sort of `(score, tag)` pairs. -/
def sortScoresDesc (l : List (ℚ × LName)) : List (ℚ × LName) :=
  l.foldr insertScoreDesc []

/-- Embedding of `TagSelector.select_tags` with the selector state
(`self.scores`, `self.weights` — the parsed design scores and tag
criteria) passed explicitly; the source mutates the bin in place, the
embedding returns the updated `BinResult`. -/
def select_tags (scores : List (LName × ℚ)) (weights : List (String × ℚ))
    (bin : BinResult) : Except Err BinResult :=
  if weights.isEmpty ∧ scores.isEmpty then .ok bin
  else if weights.isEmpty ∧ bin.disposition = "obligate-exclude" then .ok bin
  else if bin.tags.length = 1 then .ok { bin with recommended_tags := bin.tags.take 1 }
  else do
    let wcomb ← weights.foldlM (fun (acc : List (LName × ℚ)) mw => do
      let w ← build_weights bin mw.1 mw.2
      .ok (w.foldl (fun acc2 lw =>
        wSet acc2 lw.1 (((acc2.lookup lw.1).getD 1) * lw.2)) acc)) []
    let allscores := if bin.disposition = "obligate-exclude" then [] else scores
    let default_score : ℚ := if allscores.isEmpty then 1 else 0
    let scored := bin.tags.map (fun tag =>
      (((allscores.lookup tag).getD default_score) * ((wcomb.lookup tag).getD 1), tag))
    let tags2 := (sortScoresDesc scored).map Prod.snd
    let rec0 := tags2.take bin.tags_required
    let recommended := match bin.include_ with
      | some inc => if inc ∉ rec0 then inc :: rec0.take (bin.tags_required - 1) else rec0
      | none => rec0
    .ok { bin with tags := tags2, recommended_tags := recommended }

/-- Decidable equality of `Except` values, used to evaluate concrete
runs. -/
def exceptDecEq {ε α : Type} [DecidableEq ε] [DecidableEq α] :
    DecidableEq (Except ε α) := fun a b =>
  match a, b with
  | .ok x, .ok y =>
    if h : x = y then isTrue (by rw [h]) else
      isFalse (by intro hc; cases hc; exact h rfl)
  | .error x, .error y =>
    if h : x = y then isTrue (by rw [h]) else
      isFalse (by intro hc; cases hc; exact h rfl)
  | .ok _, .error _ => isFalse (by intro hc; cases hc)
  | .error _, .ok _ => isFalse (by intro hc; cases hc)

/-- Monomorphic decidable-equality instances for the `Except` results the
witnesses evaluate. -/
instance : DecidableEq (Except Err BinResult) := exceptDecEq

instance : DecidableEq (Except Err Binsets) := exceptDecEq

instance : DecidableEq (Except Err Bool) := exceptDecEq

instance : DecidableEq (Except Err (List LName)) := exceptDecEq

instance : DecidableEq (Except Err (List (LName × Bin) × Binsets)) := exceptDecEq

/-! ## Concrete example states used by witnesses -/

/-- A one-locus example locus map. -/
def exampleLoci : LocusMap := [("rs1", 1/10)]

/-- Empty obligate includes. -/
def exampleIncludes : Includes := Includes.make [] []

/-- The binsets built from the one-locus example (a single singleton
candidate bin). -/
def exampleBinsets : Binsets := [("rs1", Bin.make ["rs1"] (1/10) Bin.NORMAL 0)]

/-- A concrete locus for scanner witnesses. -/
def exampleLocusA : Locus := ⟨"rs1", 100, 1/10, [('A', 'C')]⟩

/-- A second concrete locus for scanner witnesses. -/
def exampleLocusB : Locus := ⟨"rs2", 200, 1/5, [('A', 'C')]⟩

/-- The BinResult emitted for the one-locus example. -/
def exampleResult : BinResult :=
  { tags := ["rs1"], others := [], tags_required := 1, average_maf := 1/10,
    include_ := none, ld := [("rs1", "rs1", 1, 1)],
    disposition := "maximal-bin", maxcovered := 1,
    recommended_tags := [], include_typed := [] }

/-! ## Emission-time qualifiers: `bin_qualifier` -/

/-- Embedding of `bin_qualifier`.  Arguments: the emitted result's
disposition string, its `binnum`, the count of loci binned by earlier
emissions, and the `--targetbins`/`--targetloci` options, where `0` models
the unset (Python falsy `None`) value.  The result is the pair of the
qualifier and the (possibly mutated) disposition: the source assigns
`bin.disposition = 'residual'` in the first branch. -/
def bin_qualifier (disposition : String) (binnum binned_loci : Nat)
    (targetbins targetloci : Nat) : String × String :=
  if ((targetbins ≠ 0 ∧ binnum > targetbins) ∨
      (targetloci ≠ 0 ∧ binned_loci > targetloci)) ∧
      disposition ≠ "obligate-exclude" then
    ("residual", "residual")
  else if disposition = "obligate-exclude" then ("excluded", disposition)
  else if disposition = "obligate-typed" then ("typed_bin", disposition)
  else if disposition = "obligate-untyped" then ("untyped_bin", disposition)
  else ("", disposition)

/-! ## Theorems for claims C6, C8, C9, C10 -/

/-- The explicit rounding function agrees with Mathlib's round-half-up
`round`.  (No IEEE double is an exact tie at three decimals, so the
tie-breaking rule is immaterial on the float domain the program passes.) -/
theorem round3_eq_round (q : ℚ) : round3 q = round q := by
  have hd : (0:ℤ) < 2 * (q.den : ℤ) := by positivity
  rw [round_eq, round3, Int.fdiv_eq_ediv _ hd.le]
  have hden0 : ((q.den : ℚ)) ≠ 0 := by positivity
  have hnum : ((q.num : ℚ)) = q * (q.den : ℚ) := (div_eq_iff hden0).mp (Rat.num_div_den q)
  have h2 : q + 1/2 = ((2 * q.num + (q.den:ℤ) : ℤ) : ℚ) / (((2 * q.den : ℕ) : ℕ) : ℚ) := by
    rw [eq_div_iff (by positivity)]
    push_cast
    linear_combination -2 * hnum
  rw [h2, Rat.floor_intCast_div_natCast]
  push_cast
  rfl

/-- Helper: the head of a nonempty `dropWhile` result fails the predicate. -/
theorem headD_dropWhile_not {α : Type} (p : α → Bool) (l : List α) (d : α)
    (h : l.dropWhile p ≠ []) : p ((l.dropWhile p).headD d) = false := by
  induction l with
  | nil => simp at h
  | cons a l ih =>
    by_cases hp : p a
    · rw [List.dropWhile_cons_of_pos hp] at h ⊢
      exact ih h
    · rw [List.dropWhile_cons_of_neg hp]
      simpa using hp

/-- Helper: a nonempty `dropWhile` result has the same last element as the
input list. -/
theorem getLastD_dropWhile {α : Type} (p : α → Bool) (l : List α) (d : α)
    (h : l.dropWhile p ≠ []) : (l.dropWhile p).getLastD d = l.getLastD d := by
  induction l with
  | nil => simp at h
  | cons a l ih =>
    by_cases hp : p a
    · rw [List.dropWhile_cons_of_pos hp] at h ⊢
      have hl : l ≠ [] := by
        intro he; rw [he] at h; simp at h
      rw [ih h, List.getLastD_cons]
      rw [List.getLastD_eq_getLast?, List.getLastD_eq_getLast?]
      cases hgl : l.getLast? with
      | none => exact absurd (List.getLast?_eq_none_iff.mp hgl) hl
      | some x => rfl
    · rw [List.dropWhile_cons_of_neg hp]

/-- Helper: the last character surviving `rstrip('0.')` is neither a zero
digit nor a dot. -/
theorem getLastD_rstripZeroDot (l : List Char) (d : Char)
    (h : rstripZeroDot l ≠ []) :
    (rstripZeroDot l).getLastD d ≠ '0' ∧ (rstripZeroDot l).getLastD d ≠ '.' := by
  have hne : l.reverse.dropWhile (fun c => c == '0' || c == '.') ≠ [] := by
    intro he
    apply h
    simp [rstripZeroDot, he]
  have hhead := headD_dropWhile_not (fun c => c == '0' || c == '.') l.reverse d hne
  have heq : (rstripZeroDot l).getLastD d
      = (l.reverse.dropWhile (fun c => c == '0' || c == '.')).headD d := by
    rw [rstripZeroDot, List.getLastD_eq_getLast?, List.getLast?_reverse,
        ← List.headD_eq_head?]
  rw [heq]
  constructor <;> (intro hc; rw [hc] at hhead; simp at hhead)

/-- C8 (amended): `sfloat` renders the `%.3f` fixed-point form of its
argument with all trailing `'0'`/`'.'` characters removed and then all
leading `'0'` characters removed, yielding `"0"` when nothing remains.
Consequently the output is `"0"` or neither starts with a zero digit nor
ends in a zero digit or a dot; in particular exactly zero prints as `"0"`,
`0.8` prints as `".8"` (the leading zero is stripped), and `10` prints as
`"1"` (its trailing integral zero is stripped together with the dot). -/
theorem C8_sfloat_minimal :
    (∀ n : ℚ, sfloat n = "0" ∨
      ((sfloat n).data.headD 'x' ≠ '0' ∧
       (sfloat n).data.getLastD 'x' ≠ '0' ∧
       (sfloat n).data.getLastD 'x' ≠ '.')) ∧
    sfloat 0 = "0" ∧ sfloat (4 / 5) = ".8" ∧ sfloat 10 = "1" := by
  refine ⟨fun n => ?_, by decide, by decide, by decide⟩
  by_cases hr : (lstripZero (rstripZeroDot (fmt3 n).data)).isEmpty
  · left
    simp [sfloat, hr]
  · right
    have hdata : (sfloat n).data = lstripZero (rstripZeroDot (fmt3 n).data) := by
      rw [sfloat]
      simp only [hr, Bool.false_eq_true, if_false]
    have hne : lstripZero (rstripZeroDot (fmt3 n).data) ≠ [] := by
      simpa [List.isEmpty_iff] using hr
    have hrne : rstripZeroDot (fmt3 n).data ≠ [] := by
      intro he
      apply hne
      simp [lstripZero, he]
    have hlast := getLastD_dropWhile (fun c => c == '0') (rstripZeroDot (fmt3 n).data) 'x'
      (by simpa [lstripZero] using hne)
    have hstrip := getLastD_rstripZeroDot (fmt3 n).data 'x' hrne
    have hhead := headD_dropWhile_not (fun c => c == '0') (rstripZeroDot (fmt3 n).data) 'x'
      (by simpa [lstripZero] using hne)
    rw [hdata]
    refine ⟨?_, ?_, ?_⟩
    · intro hc
      simp only [lstripZero] at hc
      rw [hc] at hhead
      simp at hhead
    · intro hc
      simp only [lstripZero] at hc
      rw [hlast] at hc
      exact hstrip.1 hc
    · intro hc
      simp only [lstripZero] at hc
      rw [hlast] at hc
      exact hstrip.2 hc

/-- C8 counterexample: `sfloat 0.8` is `".8"` — the leading zero is removed
by `lstrip('0')` — and not `"0.8"` as the claim states. -/
theorem C8_counterexample : sfloat (4 / 5) = ".8" ∧ sfloat (4 / 5) ≠ "0.8" := by
  constructor <;> decide

/-- C9: calling `Bin.remove` with a name that is not a member raises
`KeyError` (modelled by `none`); since the exception is raised before the
MAF update line runs, the observable state after the failed call is the
original bin, with member set, MAF accumulator, disposition and
`maxcovered` untouched. -/
theorem C9_remove_absent_keyerror (b : Bin) (lname : LName) (m : ℚ)
    (h : lname ∉ b.members) :
    b.remove lname m = none ∧
    ((b.remove lname m).getD b).members = b.members ∧
    ((b.remove lname m).getD b).maf = b.maf ∧
    ((b.remove lname m).getD b).disposition = b.disposition ∧
    ((b.remove lname m).getD b).maxcovered = b.maxcovered := by
  have hnone : b.remove lname m = none := by
    simp [Bin.remove, h]
  exact ⟨hnone, by simp [hnone], by simp [hnone], by simp [hnone], by simp [hnone]⟩

/-- C9 witness at a concrete bin. -/
theorem C9_witness :
    ("rs2" ∉ (Bin.make ["rs1"] (1/10) 0 0).members) ∧
    (Bin.make ["rs1"] (1/10) 0 0).remove "rs2" (1/5) = none :=
  ⟨by decide, (C9_remove_absent_keyerror (Bin.make ["rs1"] (1/10) 0 0) "rs2" (1/5)
      (by decide)).1⟩

/-- C10: adding a name that is already a member leaves the member set and
(with `maxcovered ≥ |members|` holding, as for every bin the program ever
constructs) the `maxcovered` field unchanged, yet still adds `m` to the
MAF accumulator; hence if the accumulator equalled the sum of its members'
MAFs and `m > 0`, after the duplicate add it strictly exceeds that sum. -/
theorem C10_duplicate_add (b : Bin) (lname : LName) (m : ℚ) (f : LName → ℚ)
    (hmem : lname ∈ b.members) (hmc : b.members.length ≤ b.maxcovered) :
    (b.add lname m).members = b.members ∧
    (b.add lname m).maxcovered = b.maxcovered ∧
    (b.add lname m).maf = b.maf + m ∧
    (b.maf = (b.members.map f).sum → 0 < m →
      ((b.add lname m).members.map f).sum < (b.add lname m).maf) := by
  have hins : setAdd b.members lname = b.members := by simp [setAdd, hmem]
  have hmem2 : (b.add lname m).members = b.members := by simp [Bin.add, hins]
  refine ⟨hmem2, ?_, rfl, ?_⟩
  · simp [Bin.add, hins, Nat.max_eq_left hmc]
  · intro hsum hm
    have hmaf : (b.add lname m).maf = b.maf + m := rfl
    rw [hmem2, hmaf, ← hsum]
    linarith

/-- C10 witness at a concrete bin. -/
theorem C10_witness :
    ("rs1" ∈ (Bin.make ["rs1"] (1/10) 0 0).members) ∧
    ((Bin.make ["rs1"] (1/10) 0 0).add "rs1" (1/10)).maf = 1/10 + 1/10 :=
  ⟨by decide,
   (C10_duplicate_add (Bin.make ["rs1"] (1/10) 0 0) "rs1" (1/10) (fun _ => 1/10)
      (by decide) (by decide)).2.2.1⟩

/-- C6 (amended): once a nonzero cap is exceeded (`binnum > targetbins`, or
`binned_loci > targetloci`), every emission whose selection-time
disposition is not `obligate-exclude` has both its qualifier and its
stored disposition set to `residual`.  (Bins whose disposition is
`obligate-exclude` keep their disposition and the qualifier `excluded`.) -/
theorem C6_residual_after_cap (disposition : String)
    (binnum binned_loci targetbins targetloci : Nat)
    (hcap : (targetbins ≠ 0 ∧ binnum > targetbins) ∨
            (targetloci ≠ 0 ∧ binned_loci > targetloci))
    (hd : disposition ≠ "obligate-exclude") :
    bin_qualifier disposition binnum binned_loci targetbins targetloci
      = ("residual", "residual") := by
  simp only [bin_qualifier, if_pos (And.intro hcap hd)]

/-- C6 witness: a `maximal-bin` emission past the `targetbins` cap. -/
theorem C6_witness :
    (((1 : Nat) ≠ 0 ∧ 2 > 1) ∨ ((0 : Nat) ≠ 0 ∧ 0 > 0)) ∧
    bin_qualifier "maximal-bin" 2 0 1 0 = ("residual", "residual") :=
  ⟨Or.inl ⟨by decide, by decide⟩,
   C6_residual_after_cap "maximal-bin" 2 0 1 0 (Or.inl ⟨by decide, by decide⟩)
     (by decide)⟩

/-- C6 counterexample: with the `targetbins = 1` cap already exceeded
(`binnum = 2`), a bin whose selection-time disposition is
`obligate-exclude` keeps its disposition and is qualified `excluded`, so
the cap does not override the disposition of every late bin. -/
theorem C6_counterexample :
    bin_qualifier "obligate-exclude" 2 0 1 0 = ("excluded", "obligate-exclude") ∧
    bin_qualifier "obligate-exclude" 2 0 1 0 ≠ ("residual", "residual") := by
  constructor <;> decide

/-! ## Theorems for claim C4 -/

/-- Membership after a set-like allele insertion. -/
theorem mem_addAllele {acc : List Char} {c d : Char} :
    c ∈ addAllele acc d ↔ c ∈ acc ∨ c = d := by
  unfold addAllele
  by_cases h : d ∈ acc
  · simp only [if_pos h]
    constructor
    · exact Or.inl
    · rintro (hc | rfl)
      · exact hc
      · exact h
  · simp [if_neg h]

/-- Characterization of the characters collected by `alleles1`. -/
theorem mem_alleles1 (dc : List (Geno × Geno × Nat)) (c : Char) :
    c ∈ alleles1 dc ↔ ∃ d ∈ dc, c = d.1.1 ∨ c = d.1.2 := by
  have haux : ∀ (l : List (Geno × Geno × Nat)) (acc : List Char),
      c ∈ l.foldl (fun acc d => addAllele (addAllele acc d.1.1) d.1.2) acc ↔
      c ∈ acc ∨ ∃ d ∈ l, c = d.1.1 ∨ c = d.1.2 := by
    intro l
    induction l with
    | nil => simp
    | cons hd tl ih =>
      intro acc
      rw [List.foldl_cons, ih, mem_addAllele, mem_addAllele]
      simp only [List.mem_cons]
      constructor
      · rintro (((h | h) | h) | ⟨d, hd2, hc⟩)
        · exact Or.inl h
        · exact Or.inr ⟨hd, Or.inl rfl, Or.inl h⟩
        · exact Or.inr ⟨hd, Or.inl rfl, Or.inr h⟩
        · exact Or.inr ⟨d, Or.inr hd2, hc⟩
      · rintro (h | ⟨d, (rfl | hd2), hc⟩)
        · exact Or.inl (Or.inl (Or.inl h))
        · rcases hc with h | h
          · exact Or.inl (Or.inl (Or.inr h))
          · exact Or.inl (Or.inr h)
        · exact Or.inr ⟨d, hd2, hc⟩
  rw [alleles1, haux]
  simp

/-- Set-like insertion preserves freedom from duplicates. -/
theorem nodup_addAllele {acc : List Char} {d : Char} (h : acc.Nodup) :
    (addAllele acc d).Nodup := by
  unfold addAllele
  by_cases hd : d ∈ acc
  · simpa [hd]
  · simp [hd, h, List.nodup_append]

/-- The collected allele list of the first locus has no duplicates. -/
theorem nodup_alleles1 (dc : List (Geno × Geno × Nat)) : (alleles1 dc).Nodup := by
  have haux : ∀ (l : List (Geno × Geno × Nat)) (acc : List Char), acc.Nodup →
      (l.foldl (fun acc d => addAllele (addAllele acc d.1.1) d.1.2) acc).Nodup := by
    intro l
    induction l with
    | nil => intro acc h; simpa
    | cons hd tl ih =>
      intro acc h
      rw [List.foldl_cons]
      exact ih _ (nodup_addAllele (nodup_addAllele h))
  exact haux dc [] List.nodup_nil

/-- Insertion into a sorted list is a permutation of consing. -/
theorem insertSorted_perm (c : Char) (l : List Char) :
    (insertSorted c l).Perm (c :: l) := by
  induction l with
  | nil => simp [insertSorted]
  | cons x xs ih =>
    unfold insertSorted
    by_cases h : c ≤ x
    · simp [h]
    · rw [if_neg h]
      exact (ih.cons x).trans (List.Perm.swap c x xs)

/-- Insertion sort permutes its input. -/
theorem sortChars_perm (l : List Char) : (sortChars l).Perm l := by
  induction l with
  | nil => simp [sortChars]
  | cons x xs ih =>
    have : sortChars (x :: xs) = insertSorted x (sortChars xs) := rfl
    rw [this]
    exact (insertSorted_perm x (sortChars xs)).trans (ih.cons x)

/-- If every allele in the collected set is either the space character or
the fixed allele `a` and no NUL occurs, then the exemplar heterozygote
found for the locus is padded: its second character is NUL. -/
theorem find_hetz_mono {alleles : List Char} {a : Char} {het : Geno}
    (hQ : ∀ c ∈ alleles, c ≠ '\x00' ∧ (c ≠ ' ' → c = a))
    (hnd : alleles.Nodup)
    (hsome : find_hetz alleles = some het) : het.2 = '\x00' := by
  have hperm := sortChars_perm alleles
  set fl := (sortChars alleles).filter (fun c => c != ' ') with hfl
  have hmem : ∀ c ∈ fl, c = a := by
    intro c hc
    rw [hfl, List.mem_filter] at hc
    have hca := hQ c (hperm.mem_iff.mp hc.1)
    exact hca.2 (by simpa using hc.2)
  have hndfl : fl.Nodup := (hperm.nodup_iff.mpr hnd).filter _
  have hlen : fl.length ≤ 1 := by
    cases hm : fl with
    | nil => simp
    | cons x tl =>
      cases htl : tl with
      | nil => simp
      | cons y rest =>
        exfalso
        rw [htl] at hm
        have hx : x = a := hmem x (by rw [hm]; exact List.mem_cons_self _ _)
        have hy : y = a := hmem y
          (by rw [hm]; exact List.mem_cons_of_mem _ (List.mem_cons_self _ _))
        rw [hm] at hndfl
        rcases List.nodup_cons.mp hndfl with ⟨hxny, _⟩
        apply hxny
        rw [hx, ← hy]
        exact List.mem_cons_self _ _
  have hget : fl.getD 1 '\x00' = '\x00' := by
    cases hm : fl with
    | nil => rfl
    | cons x tl =>
      cases htl : tl with
      | nil => rfl
      | cons y rest =>
        exfalso
        rw [htl] at hm
        rw [hm] at hlen
        simp at hlen
  simp only [find_hetz] at hsome
  rw [← hfl] at hsome
  have hnotgt : ¬ (2 < fl.length) := by omega
  rw [if_neg hnotgt] at hsome
  have hh := Option.some.inj hsome
  rw [← hh, hget]

/-- Keys present after a tally insertion are either pre-existing keys or
the inserted key. -/
theorem mem_tallyAdd {acc : List ((Geno × Geno) × Nat)} {k : Geno × Geno}
    {p : (Geno × Geno) × Nat} (h : p ∈ tallyAdd acc k) :
    (∃ n, (p.1, n) ∈ acc) ∨ p.1 = k := by
  induction acc with
  | nil =>
    simp only [tallyAdd, List.mem_singleton] at h
    right
    rw [h]
  | cons hd tl ih =>
    obtain ⟨k0, n0⟩ := hd
    simp only [tallyAdd] at h
    by_cases he : k0 = k
    · rw [if_pos he] at h
      rcases List.mem_cons.mp h with rfl | hmem
      · right; exact he
      · exact Or.inl ⟨p.2, by simpa using List.mem_cons_of_mem _ hmem⟩
    · rw [if_neg he] at h
      rcases List.mem_cons.mp h with rfl | hmem
      · exact Or.inl ⟨n0, List.mem_cons_self _ _⟩
      · rcases ih hmem with ⟨n, hn⟩ | hk
        · exact Or.inl ⟨n, List.mem_cons_of_mem _ hn⟩
        · exact Or.inr hk

/-- Every tallied diplotype of `count_diplotypes` comes from a kept,
normalized pair of input genotypes. -/
theorem count_diplotypes_sources (genos1 genos2 : List Geno) :
    ∀ p ∈ count_diplotypes genos1 genos2, ∃ gg ∈ genos1.zip genos2,
      gg.1 ≠ missingGeno ∧ gg.2 ≠ missingGeno ∧
      p.1 = normGeno gg.1 ∧ p.2.1 = normGeno gg.2 := by
  have haux : ∀ (l : List (Geno × Geno)) (acc : List ((Geno × Geno) × Nat)),
      ∀ kn ∈ l.foldl (fun acc gg =>
          if gg.1 = missingGeno ∨ gg.2 = missingGeno then acc
          else tallyAdd acc (normGeno gg.1, normGeno gg.2)) acc,
        (∃ n, (kn.1, n) ∈ acc) ∨ ∃ gg ∈ l, gg.1 ≠ missingGeno ∧ gg.2 ≠ missingGeno ∧
          kn.1 = (normGeno gg.1, normGeno gg.2) := by
    intro l
    induction l with
    | nil =>
      intro acc kn h
      exact Or.inl ⟨kn.2, by simpa using h⟩
    | cons gg tl ih =>
      intro acc kn h
      rw [List.foldl_cons] at h
      by_cases hm : gg.1 = missingGeno ∨ gg.2 = missingGeno
      · rw [if_pos hm] at h
        rcases ih acc kn h with h1 | ⟨g, hg, hgg⟩
        · exact Or.inl h1
        · exact Or.inr ⟨g, List.mem_cons_of_mem _ hg, hgg⟩
      · rw [if_neg hm] at h
        push_neg at hm
        rcases ih _ kn h with ⟨n, hn⟩ | ⟨g, hg, hgg⟩
        · rcases mem_tallyAdd hn with h3 | h4
          · exact Or.inl h3
          · exact Or.inr ⟨gg, List.mem_cons_self _ _, hm.1, hm.2, h4⟩
        · exact Or.inr ⟨g, List.mem_cons_of_mem _ hg, hgg⟩
  intro p hp
  simp only [count_diplotypes, List.mem_map] at hp
  obtain ⟨kn, hkn, hpkn⟩ := hp
  rcases haux (genos1.zip genos2) [] kn hkn with ⟨n, hn⟩ | ⟨gg, hg, h1, h2, hkey⟩
  · simp at hn
  · refine ⟨gg, hg, h1, h2, ?_, ?_⟩
    · rw [← hpkn]
      simp only []
      rw [hkey]
    · rw [← hpkn]
      simp only []
      rw [hkey]

/-- Under a monomorphic, NUL-free first locus, both characters of the
first component of every tallied diplotype are non-NUL and equal `a`
unless missing. -/
theorem dc_first_props {genos1 genos2 : List Geno} {a : Char}
    (hmono : MonomorphicAllele genos1 a) (hnn : NoNullAllele genos1) :
    ∀ p ∈ count_diplotypes genos1 genos2,
      (p.1.1 ≠ '\x00' ∧ (p.1.1 ≠ ' ' → p.1.1 = a)) ∧
      (p.1.2 ≠ '\x00' ∧ (p.1.2 ≠ ' ' → p.1.2 = a)) := by
  intro p hp
  obtain ⟨gg, hgg, _, _, h1, _⟩ := count_diplotypes_sources genos1 genos2 p hp
  obtain ⟨⟨x, y⟩, g2⟩ := gg
  have hg1 : (x, y) ∈ genos1 := (List.of_mem_zip hgg).1
  have hm := hmono (x, y) hg1
  have hn := hnn (x, y) hg1
  rw [h1]
  unfold normGeno
  constructor
  · rcases min_choice x y with hmin | hmin <;> simp only [hmin]
    · exact ⟨hn.1, hm.1⟩
    · exact ⟨hn.2, hm.2⟩
  · rcases max_choice x y with hmax | hmax <;> simp only [hmax]
    · exact ⟨hn.1, hm.1⟩
    · exact ⟨hn.2, hm.2⟩

/-- The allele set collected for a monomorphic, NUL-free locus contains
only the space and the single allele, and never NUL. -/
theorem alleles1_props {genos1 genos2 : List Geno} {a : Char}
    (hmono : MonomorphicAllele genos1 a) (hnn : NoNullAllele genos1) :
    ∀ c ∈ alleles1 (count_diplotypes genos1 genos2),
      c ≠ '\x00' ∧ (c ≠ ' ' → c = a) := by
  intro c hc
  rw [mem_alleles1] at hc
  obtain ⟨d, hd, hc⟩ := hc
  have hprops := dc_first_props hmono hnn d hd
  rcases hc with rfl | rfl
  · exact hprops.1
  · exact hprops.2

/-- The second character of an oriented genotype is one of its two
characters. -/
theorem orient_snd (g het : Geno) :
    (orient g het).2 = g.1 ∨ (orient g het).2 = g.2 := by
  unfold orient
  by_cases h : (g.1 = ' ' ∨ g.2 = ' ') ∧ g.2 ≠ het.2
  · rw [if_pos h]; exact Or.inl rfl
  · rw [if_neg h]; exact Or.inr rfl

/-- One tally-loop step neither touches the double-heterozygote count nor
the `c21`/`c22` classes when the first heterozygote is padded with NUL and
the diplotype contains no NUL. -/
theorem hapStep_keeps (het1 het2 : Geno) (h2 : het1.2 = '\x00')
    {d : Geno × Geno × Nat} (hd : d.1.1 ≠ '\x00' ∧ d.1.2 ≠ '\x00')
    (x : Nat × Nat × Nat × Nat × Nat) :
    (hapStep het1 het2 x d).2.2.1 = x.2.2.1 ∧
    (hapStep het1 het2 x d).2.2.2.1 = x.2.2.2.1 ∧
    (hapStep het1 het2 x d).2.2.2.2 = x.2.2.2.2 := by
  have hne : ¬ (d.1 = het1 ∧ d.2.1 = het2) := by
    rintro ⟨he, _⟩
    apply hd.2
    rw [he, h2]
  have hsnd : (orient d.1 het1).2 ≠ het1.2 := by
    rcases orient_snd d.1 het1 with h | h <;> rw [h, h2]
    · exact hd.1
    · exact hd.2
  unfold hapStep
  rw [if_neg hne]
  dsimp only
  refine ⟨?_, ?_, rfl⟩
  · rw [if_neg (fun hc => hsnd hc.1), Nat.add_zero]
  · rw [if_neg (fun hc => hsnd hc.1), Nat.add_zero]

/-- The tally loop leaves `c21`, `c22` and `dh` at zero under the
conditions of `hapStep_keeps`. -/
theorem hapfold_zeros (het1 het2 : Geno) (h2 : het1.2 = '\x00')
    (dc : List (Geno × Geno × Nat))
    (hdc : ∀ p ∈ dc, p.1.1 ≠ '\x00' ∧ p.1.2 ≠ '\x00') :
    ∀ x : Nat × Nat × Nat × Nat × Nat,
      x.2.2.1 = 0 → x.2.2.2.1 = 0 → x.2.2.2.2 = 0 →
      (dc.foldl (hapStep het1 het2) x).2.2.1 = 0 ∧
      (dc.foldl (hapStep het1 het2) x).2.2.2.1 = 0 ∧
      (dc.foldl (hapStep het1 het2) x).2.2.2.2 = 0 := by
  induction dc with
  | nil =>
    intro x h21 h22 hdh
    exact ⟨h21, h22, hdh⟩
  | cons d tl ih =>
    intro x h21 h22 hdh
    rw [List.foldl_cons]
    have hstep := hapStep_keeps het1 het2 h2 (hdc d (List.mem_cons_self _ _)) x
    exact ih (fun p hp => hdc p (List.mem_cons_of_mem _ hp)) _
      (by rw [hstep.1, h21]) (by rw [hstep.2.1, h22]) (by rw [hstep.2.2, hdh])

/-- C4: (1) whenever both markers show fewer than two observed alleles
(`c11+c12 = 0` or `c21+c22 = 0`, and `c11+c21 = 0` or `c12+c22 = 0`) and
there are no double heterozygotes (`dh = 0`), the estimator returns
`(0, 0)` from the guard, for every EM tail `em` — that is, without any EM
iteration; and (2) for counts derived by `slow_count_haplotypes` from a
monomorphic (NUL-free) locus paired against any other locus, the estimate
is `r² = 0` and `D′ = 0`, again for every EM tail. -/
theorem C4_monomorphic_ld_zero :
    (∀ (em : Nat → Nat → Nat → Nat → Nat → ℚ × ℚ) (c11 c12 c21 c22 : Nat),
      (c11 + c12 = 0 ∨ c21 + c22 = 0) → (c11 + c21 = 0 ∨ c12 + c22 = 0) →
      slow_estimate_ld em c11 c12 c21 c22 0 = (0, 0)) ∧
    (∀ (em : Nat → Nat → Nat → Nat → Nat → ℚ × ℚ) (genos1 genos2 : List Geno)
      (a : Char) (cs : Nat × Nat × Nat × Nat × Nat),
      MonomorphicAllele genos1 a → NoNullAllele genos1 →
      slow_count_haplotypes genos1 genos2 = some cs →
      slow_estimate_ld em cs.1 cs.2.1 cs.2.2.1 cs.2.2.2.1 cs.2.2.2.2 = (0, 0)) := by
  constructor
  · intro em c11 c12 c21 c22 h1 h2
    unfold slow_estimate_ld
    rw [if_pos]
    constructor
    · rfl
    · tauto
  · intro em genos1 genos2 a cs hmono hnn hsome
    simp only [slow_count_haplotypes] at hsome
    by_cases hlen : genos1.length ≠ genos2.length
    · rw [if_pos hlen] at hsome
      exact absurd hsome (by simp)
    · rw [if_neg hlen] at hsome
      cases hfh : find_heterozygotes (count_diplotypes genos1 genos2) with
      | none =>
        rw [hfh] at hsome
        simp at hsome
      | some het =>
        rw [hfh] at hsome
        simp only [Option.some.injEq] at hsome
        have hhet2 : het.1.2 = '\x00' := by
          unfold find_heterozygotes at hfh
          cases hf1 : find_hetz (alleles1 (count_diplotypes genos1 genos2)) with
          | none => rw [hf1] at hfh; simp at hfh
          | some het1 =>
            cases hf2 : find_hetz (alleles2 (count_diplotypes genos1 genos2)) with
            | none => rw [hf1, hf2] at hfh; simp at hfh
            | some het2 =>
              rw [hf1, hf2] at hfh
              simp only [Option.some.injEq] at hfh
              have h1 := find_hetz_mono (alleles1_props hmono hnn)
                (nodup_alleles1 _) hf1
              rw [← hfh]
              exact h1
        have hdc : ∀ p ∈ count_diplotypes genos1 genos2,
            p.1.1 ≠ '\x00' ∧ p.1.2 ≠ '\x00' := by
          intro p hp
          have hprops := dc_first_props hmono hnn p hp
          exact ⟨hprops.1.1, hprops.2.1⟩
        have hz := hapfold_zeros het.1 het.2 hhet2 (count_diplotypes genos1 genos2) hdc
          (0, 0, 0, 0, 0) rfl rfl rfl
        rw [← hsome]
        unfold slow_estimate_ld
        rw [if_pos]
        constructor
        · exact hz.2.2
        · right
          left
          rw [hz.1, hz.2.1]

/-- C4 witness: two monomorphic-vs-polymorphic genotype vectors with
concrete counts, evaluated through the counting chain and the guard. -/
theorem C4_witness :
    MonomorphicAllele [('A', 'A'), ('A', 'A')] 'A' ∧
    NoNullAllele [('A', 'A'), ('A', 'A')] ∧
    slow_count_haplotypes [('A', 'A'), ('A', 'A')] [('C', 'T'), ('C', 'C')]
      = some (3, 1, 0, 0, 0) ∧
    slow_estimate_ld (fun _ _ _ _ _ => (5, 5))
      3 1 0 0 0 = (0, 0) :=
  ⟨by decide, by decide, by decide,
   C4_monomorphic_ld_zero.2 (fun _ _ _ _ _ => (5, 5))
     [('A', 'A'), ('A', 'A')] [('C', 'T'), ('C', 'C')] 'A' (3, 1, 0, 0, 0)
     (by decide) (by decide) (by decide)⟩

/-! ## Theorems for claim C7 -/

/-- C7 (amended): a bin reaching the tag selector with no weighting
criteria and no design scores is returned unchanged — in particular with
its `recommended_tags` still empty as initialized by `build_result`; and
whenever the selector does proceed (some weights are configured, or some
scores exist and the bin is not obligate-exclude), a bin with exactly one
tag gets that sole tag as its `recommended_tags`. -/
theorem C7_select_tags (scores : List (LName × ℚ)) (weights : List (String × ℚ))
    (bin : BinResult) :
    (scores = [] → weights = [] → select_tags scores weights bin = .ok bin) ∧
    (bin.tags.length = 1 →
      (weights ≠ [] ∨ (scores ≠ [] ∧ bin.disposition ≠ "obligate-exclude")) →
      select_tags scores weights bin
        = .ok { bin with recommended_tags := bin.tags }) := by
  constructor
  · intro hs hw
    rw [select_tags, if_pos]
    rw [hs, hw]
    exact ⟨rfl, rfl⟩
  · intro h1 hproceed
    have hg1 : ¬ (weights.isEmpty = true ∧ scores.isEmpty = true) := by
      rcases hproceed with hw | hs
      · intro hc
        exact hw (List.isEmpty_iff.mp hc.1)
      · intro hc
        exact hs.1 (List.isEmpty_iff.mp hc.2)
    have hg2 : ¬ (weights.isEmpty = true ∧ bin.disposition = "obligate-exclude") := by
      rcases hproceed with hw | hs
      · intro hc
        exact hw (List.isEmpty_iff.mp hc.1)
      · intro hc
        exact hs.2 hc.2
    rw [select_tags, if_neg hg1, if_neg hg2, if_pos h1]
    have htake : bin.tags.take 1 = bin.tags :=
      List.take_of_length_le (le_of_eq h1)
    rw [htake]

/-- C7 counterexample: the singleton bin emitted by a complete run on the
one-locus example, passed to a tag selector holding no scores and no
weights, is returned unchanged, so its `recommended_tags` stays empty and
does not contain the sole tag. -/
theorem C7_counterexample :
    build_binsets exampleLoci [] exampleIncludes [] []
      = some (exampleBinsets, [], []) ∧
    runBinner exampleLoci exampleIncludes none 2 exampleBinsets []
      = .done [exampleResult] ∧
    select_tags [] [] exampleResult = .ok exampleResult ∧
    exampleResult.tags = ["rs1"] ∧
    exampleResult.recommended_tags = [] := by
  refine ⟨?_, ?_, ?_, ?_, ?_⟩ <;> decide

/-- C7 witness: the same singleton bin under a selector with a weighting
criterion gets its sole tag recommended. -/
theorem C7_witness :
    exampleResult.tags.length = 1 ∧
    select_tags [] [("maxsnp", 2)] exampleResult
      = .ok { exampleResult with recommended_tags := exampleResult.tags } :=
  ⟨by decide,
   (C7_select_tags [] [("maxsnp", 2)] exampleResult).2 (by decide)
     (Or.inl (by decide))⟩

/-! ## Theorems for claim C2 -/

/-- Unfolding of the inner window loop when the next locus is inside the
window. -/
theorem scanInner_cons_pos (est : List Geno → List Geno → ℚ × ℚ) (l1 x : Locus)
    (rest : List Locus) (maxd : Int) (rth dth : ℚ)
    (hp : x.location - l1.location ≤ maxd) :
    scanInner est l1 (x :: rest) maxd rth dth
      = (if rth ≤ (est l1.genos x.genos).1 ∧ dth ≤ |(est l1.genos x.genos).2|
         then [(l1.name, x.name, (est l1.genos x.genos).1,
                (est l1.genos x.genos).2)]
         else [])
        ++ scanInner est l1 rest maxd rth dth := by
  unfold scanInner
  rw [List.takeWhile_cons_of_pos (by simpa using hp)]
  by_cases hth : rth ≤ (est l1.genos x.genos).1 ∧ dth ≤ |(est l1.genos x.genos).2|
  · rw [if_pos hth]
    rw [List.filterMap_cons]
    simp only [if_pos hth]
    rfl
  · rw [if_neg hth]
    rw [List.filterMap_cons]
    simp only [if_neg hth]
    rfl

/-- Unfolding of the inner window loop at the break point. -/
theorem scanInner_cons_neg (est : List Geno → List Geno → ℚ × ℚ) (l1 x : Locus)
    (rest : List Locus) (maxd : Int) (rth dth : ℚ)
    (hp : ¬ (x.location - l1.location ≤ maxd)) :
    scanInner est l1 (x :: rest) maxd rth dth = [] := by
  unfold scanInner
  rw [List.takeWhile_cons_of_neg (by simpa using hp)]
  rfl

/-- Characterization of the inner window loop: its yields are indexed by a
strictly increasing list of positions in the remaining loci, each inside
the window and meeting both thresholds. -/
theorem scanInner_sound (est : List Geno → List Geno → ℚ × ℚ) (l1 : Locus)
    (rest : List Locus) (maxd : Int) (rth dth : ℚ) :
    ∃ js : List Nat, List.Pairwise (· < ·) js ∧
      scanInner est l1 rest maxd rth dth
        = js.map (fun j =>
            (l1.name, (rest.getD j default).name,
             (est l1.genos (rest.getD j default).genos).1,
             (est l1.genos (rest.getD j default).genos).2)) ∧
      ∀ j ∈ js, j < rest.length ∧
        (rest.getD j default).location - l1.location ≤ maxd ∧
        rth ≤ (est l1.genos (rest.getD j default).genos).1 ∧
        dth ≤ |(est l1.genos (rest.getD j default).genos).2| := by
  induction rest with
  | nil => exact ⟨[], List.Pairwise.nil, rfl, by simp⟩
  | cons x rest ih =>
    obtain ⟨js, hpw, heq, hprop⟩ := ih
    by_cases hp : x.location - l1.location ≤ maxd
    · have hshift :
          (js.map (· + 1)).map (fun j =>
            (l1.name, ((x :: rest).getD j default).name,
             (est l1.genos ((x :: rest).getD j default).genos).1,
             (est l1.genos ((x :: rest).getD j default).genos).2))
          = js.map (fun j =>
            (l1.name, (rest.getD j default).name,
             (est l1.genos (rest.getD j default).genos).1,
             (est l1.genos (rest.getD j default).genos).2)) := by
        rw [List.map_map]
        apply List.map_congr_left
        intro j _
        simp [List.getD_cons_succ]
      have hshiftpw : List.Pairwise (· < ·) (js.map (· + 1)) := by
        rw [List.pairwise_map]
        exact hpw.imp (by omega)
      have hshiftprop : ∀ j ∈ js.map (· + 1), j < (x :: rest).length ∧
          ((x :: rest).getD j default).location - l1.location ≤ maxd ∧
          rth ≤ (est l1.genos ((x :: rest).getD j default).genos).1 ∧
          dth ≤ |(est l1.genos ((x :: rest).getD j default).genos).2| := by
        intro j hj
        simp only [List.mem_map] at hj
        obtain ⟨j0, hj0, rfl⟩ := hj
        obtain ⟨h1, h2, h3, h4⟩ := hprop j0 hj0
        refine ⟨by simp only [List.length_cons]; omega, ?_, ?_, ?_⟩
        · simpa [List.getD_cons_succ] using h2
        · simpa [List.getD_cons_succ] using h3
        · simpa [List.getD_cons_succ] using h4
      by_cases hth : rth ≤ (est l1.genos x.genos).1 ∧ dth ≤ |(est l1.genos x.genos).2|
      · refine ⟨0 :: js.map (· + 1), ?_, ?_, ?_⟩
        · constructor
          · intro j hj
            simp only [List.mem_map] at hj
            obtain ⟨j0, _, rfl⟩ := hj
            omega
          · exact hshiftpw
        · rw [scanInner_cons_pos est l1 x rest maxd rth dth hp, if_pos hth]
          rw [List.map_cons, hshift, ← heq]
          rfl
        · intro j hj
          rcases List.mem_cons.mp hj with rfl | hj2
          · exact ⟨by simp, by simpa using hp, by simpa using hth.1,
              by simpa using hth.2⟩
          · exact hshiftprop j hj2
      · refine ⟨js.map (· + 1), hshiftpw, ?_, hshiftprop⟩
        rw [scanInner_cons_pos est l1 x rest maxd rth dth hp, if_neg hth]
        rw [hshift, ← heq]
        rfl
    · refine ⟨[], List.Pairwise.nil, ?_, by simp⟩
      rw [scanInner_cons_neg est l1 x rest maxd rth dth hp]
      rfl

/-- The emitted tuple of a window pair, read off the consed locus list. -/
theorem emitAt_cons_succ (est : List Geno → List Geno → ℚ × ℚ) (l1 : Locus)
    (rest : List Locus) (i j : Nat) :
    emitAt est (l1 :: rest) (i + 1, j + 1) = emitAt est rest (i, j) := by
  simp [emitAt, List.getD_cons_succ]

/-- Structural characterization of `scan_ldpairs`: the yields are exactly
the images of a strictly lexicographically increasing list of index pairs,
each in range, in the window and meeting both thresholds. -/
theorem scan_ldpairs_struct (est : List Geno → List Geno → ℚ × ℚ)
    (loci : List Locus) (maxd : Int) (rth dth : ℚ) :
    ∃ ijs : List (Nat × Nat), List.Pairwise IdxLt ijs ∧
      scan_ldpairs est loci maxd rth dth = ijs.map (emitAt est loci) ∧
      ∀ ij ∈ ijs, ij.1 < ij.2 ∧ ij.2 < loci.length ∧
        (loci.getD ij.2 default).location - (loci.getD ij.1 default).location
          ≤ maxd ∧
        rth ≤ (est (loci.getD ij.1 default).genos
                (loci.getD ij.2 default).genos).1 ∧
        dth ≤ |(est (loci.getD ij.1 default).genos
                (loci.getD ij.2 default).genos).2| := by
  induction loci with
  | nil => exact ⟨[], List.Pairwise.nil, rfl, by simp⟩
  | cons l1 rest ih =>
    obtain ⟨ijs, hpw, heq, hprop⟩ := ih
    obtain ⟨js, hjpw, hjeq, hjprop⟩ := scanInner_sound est l1 rest maxd rth dth
    refine ⟨js.map (fun j => (0, j + 1)) ++ ijs.map (fun ij => (ij.1 + 1, ij.2 + 1)),
      ?_, ?_, ?_⟩
    · rw [List.pairwise_append]
      refine ⟨?_, ?_, ?_⟩
      · rw [List.pairwise_map]
        apply hjpw.imp
        intro a b hab
        exact Or.inr ⟨rfl, by omega⟩
      · rw [List.pairwise_map]
        apply hpw.imp
        intro a b hab
        rcases hab with h | ⟨h1, h2⟩
        · exact Or.inl (by omega)
        · exact Or.inr ⟨by omega, by omega⟩
      · intro a ha b hb
        simp only [List.mem_map] at ha hb
        obtain ⟨j, _, rfl⟩ := ha
        obtain ⟨ij, _, rfl⟩ := hb
        exact Or.inl (by omega)
    · have h1 : scanInner est l1 rest maxd rth dth
          = (js.map (fun j => (0, j + 1))).map (emitAt est (l1 :: rest)) := by
        rw [List.map_map, hjeq]
        apply List.map_congr_left
        intro j _
        simp [Function.comp, emitAt, List.getD_cons_zero, List.getD_cons_succ]
      have h2 : scan_ldpairs est rest maxd rth dth
          = (ijs.map (fun ij => (ij.1 + 1, ij.2 + 1))).map (emitAt est (l1 :: rest)) := by
        rw [List.map_map, heq]
        apply List.map_congr_left
        intro ij _
        simp only [Function.comp_apply]
        exact (emitAt_cons_succ est l1 rest ij.1 ij.2).symm
      show scanInner est l1 rest maxd rth dth ++ scan_ldpairs est rest maxd rth dth = _
      rw [List.map_append, h1, h2]
    · intro ij hij
      rcases List.mem_append.mp hij with hin | hin
      · simp only [List.mem_map] at hin
        obtain ⟨j, hj, rfl⟩ := hin
        obtain ⟨h1, h2, h3, h4⟩ := hjprop j hj
        refine ⟨by omega, by simp only [List.length_cons]; omega, ?_, ?_, ?_⟩
        · simpa [List.getD_cons_zero, List.getD_cons_succ] using h2
        · simpa [List.getD_cons_zero, List.getD_cons_succ] using h3
        · simpa [List.getD_cons_zero, List.getD_cons_succ] using h4
      · simp only [List.mem_map] at hin
        obtain ⟨ij0, hij0, rfl⟩ := hin
        obtain ⟨h1, h2, h3, h4, h5⟩ := hprop ij0 hij0
        refine ⟨by omega, by simp only [List.length_cons]; omega, ?_, ?_, ?_⟩
        · simpa [List.getD_cons_succ] using h3
        · simpa [List.getD_cons_succ] using h4
        · simpa [List.getD_cons_succ] using h5

/-- Entries surviving a dict assignment are old entries or the assigned
binding. -/
theorem mem_ldAssign {ld : LDData} {k : LName × LName} {v : ℚ × ℚ}
    {e : (LName × LName) × ℚ × ℚ} (h : e ∈ ldAssign ld k v) :
    e ∈ ld ∨ e = (k, v) := by
  unfold ldAssign at h
  by_cases hs : (ld.lookup k).isSome
  · rw [if_pos hs] at h
    obtain ⟨e0, he0, hfe⟩ := List.mem_map.mp h
    by_cases hk : e0.1 = k
    · rw [if_pos hk] at hfe
      exact Or.inr hfe.symm
    · rw [if_neg hk] at hfe
      exact Or.inl (hfe ▸ he0)
  · rw [if_neg hs] at h
    rcases List.mem_append.mp h with h1 | h1
    · exact Or.inl h1
    · exact Or.inr (List.mem_singleton.mp h1)

/-- One pair consumed by the bin builder only adds its own binding to
`lddata`. -/
theorem bbPair_lddata {loci : LocusMap} {st st2 : Binsets × LDData}
    {t : LName × LName × ℚ × ℚ} (h : bbPair loci st t = some st2) :
    ∀ e ∈ st2.2, e ∈ st.2 ∨ e = ((t.1, t.2.1), (t.2.2.1, t.2.2.2)) := by
  intro e he
  unfold bbPair at h
  dsimp only at h
  cases h1 : loci.lookup t.1 with
  | none =>
    rw [h1] at h
    simp at h
  | some m1 =>
    cases h2 : loci.lookup t.2.1 with
    | none =>
      rw [h1, h2] at h
      simp at h
    | some m2 =>
      rw [h1, h2] at h
      simp only [Option.bind_eq_bind, Option.some_bind, Option.some.injEq] at h
      rw [← h] at he
      exact mem_ldAssign he

/-- The pair-consumption fold of the bin builder only adds bindings of its
stream. -/
theorem foldlM_bbPair_lddata (loci : LocusMap) :
    ∀ (pairs : List (LName × LName × ℚ × ℚ)) (st st2 : Binsets × LDData),
      pairs.foldlM (bbPair loci) st = some st2 →
      ∀ e ∈ st2.2, e ∈ st.2 ∨
        ∃ t ∈ pairs, e = ((t.1, t.2.1), (t.2.2.1, t.2.2.2)) := by
  intro pairs
  induction pairs with
  | nil =>
    intro st st2 h e he
    rw [List.foldlM_nil] at h
    cases h
    exact Or.inl he
  | cons t tl ih =>
    intro st st2 h e he
    rw [List.foldlM_cons] at h
    cases hb : bbPair loci st t with
    | none =>
      rw [hb] at h
      simp at h
    | some st1 =>
      rw [hb] at h
      simp only [Option.bind_eq_bind, Option.some_bind] at h
      rcases ih st1 st2 h e he with h1 | ⟨t0, ht0, he0⟩
      · rcases bbPair_lddata hb e h1 with h2 | h2
        · exact Or.inl h2
        · exact Or.inr ⟨t, List.mem_cons_self _ _, h2⟩
      · exact Or.inr ⟨t0, List.mem_cons_of_mem _ ht0, he0⟩

/-- Every `lddata` binding produced by `build_binsets` comes from a tuple
of one of the consumed LD-pair streams. -/
theorem build_binsets_lddata {loci : LocusMap}
    {ldpairs : List (List (LName × LName × ℚ × ℚ))} {includes : Includes}
    {exclude : List LName} {ds : List (LName × ℚ)} {bs : Binsets}
    {ld : LDData} {ex2 : List LName}
    (h : build_binsets loci ldpairs includes exclude ds = some (bs, ld, ex2)) :
    ∀ e ∈ ld, ∃ pairs ∈ ldpairs, ∃ t ∈ pairs,
      e = ((t.1, t.2.1), (t.2.2.1, t.2.2.2)) := by
  have houter : ∀ (streams : List (List (LName × LName × ℚ × ℚ)))
      (st st2 : Binsets × LDData),
      streams.foldlM (fun st pairs => pairs.foldlM (bbPair loci) st) st = some st2 →
      ∀ e ∈ st2.2, e ∈ st.2 ∨ ∃ pairs ∈ streams, ∃ t ∈ pairs,
        e = ((t.1, t.2.1), (t.2.2.1, t.2.2.2)) := by
    intro streams
    induction streams with
    | nil =>
      intro st st2 hf e he
      rw [List.foldlM_nil] at hf
      cases hf
      exact Or.inl he
    | cons pairs tl ih =>
      intro st st2 hf e he
      rw [List.foldlM_cons] at hf
      cases hb : pairs.foldlM (bbPair loci) st with
      | none =>
        rw [hb] at hf
        simp at hf
      | some st1 =>
        rw [hb] at hf
        simp only [Option.bind_eq_bind, Option.some_bind] at hf
        rcases ih st1 st2 hf e he with h1 | ⟨p0, hp0, hrest⟩
        · rcases foldlM_bbPair_lddata loci pairs st st1 hb e h1 with h2 | ⟨t, ht, he2⟩
          · exact Or.inl h2
          · exact Or.inr ⟨pairs, List.mem_cons_self _ _, t, ht, he2⟩
        · exact Or.inr ⟨p0, List.mem_cons_of_mem _ hp0, hrest⟩
  intro e he
  unfold build_binsets at h
  simp only [Option.bind_eq_bind, Option.bind_eq_some] at h
  obtain ⟨st1, hst, h⟩ := h
  obtain ⟨bs5, hbb, h⟩ := h
  have hld : ld = st1.2 := by
    have := congrArg (fun x : Binsets × LDData × List LName => x.2.1)
      (Option.some.injEq _ _ ▸ h)
    simpa using this.symm
  rw [hld] at he
  rcases houter ldpairs ([], []) st1 hst e he with h1 | h2
  · simp at h1
  · exact h2

/-- C2: every tuple yielded by `scan_ldpairs` over a `(location, name)`
sorted locus list arises from an index pair `i < j` whose genomic distance
is within `maxd` and whose estimated `r²` and `|D′|` meet both thresholds,
and the tuples are emitted in strictly ascending `(i, j)` order;
consequently every binding entering the LDTable built over the scan output
is one of those tuples. -/
theorem C2_scan_ldpairs (est : List Geno → List Geno → ℚ × ℚ)
    (loci : List Locus) (maxd : Int) (rth dth : ℚ)
    (hsorted : loci.Pairwise (fun a b =>
      a.location < b.location ∨ (a.location = b.location ∧ a.name ≤ b.name))) :
    (∃ ijs : List (Nat × Nat), List.Pairwise IdxLt ijs ∧
      scan_ldpairs est loci maxd rth dth = ijs.map (emitAt est loci) ∧
      ∀ ij ∈ ijs, ij.1 < ij.2 ∧ ij.2 < loci.length ∧
        (loci.getD ij.2 default).location - (loci.getD ij.1 default).location
          ≤ maxd ∧
        rth ≤ (est (loci.getD ij.1 default).genos
                (loci.getD ij.2 default).genos).1 ∧
        dth ≤ |(est (loci.getD ij.1 default).genos
                (loci.getD ij.2 default).genos).2|) ∧
    (∀ (lmap : LocusMap) (includes : Includes) (exclude : List LName)
       (ds : List (LName × ℚ)) (bs : Binsets) (ld : LDData) (ex2 : List LName),
      build_binsets lmap [scan_ldpairs est loci maxd rth dth] includes exclude ds
        = some (bs, ld, ex2) →
      ∀ e ∈ ld, (e.1.1, e.1.2, e.2) ∈ scan_ldpairs est loci maxd rth dth) := by
  constructor
  · exact scan_ldpairs_struct est loci maxd rth dth
  · intro lmap includes exclude ds bs ld ex2 h e he
    obtain ⟨pairs, hpairs, t, ht, hte⟩ := build_binsets_lddata h e he
    rw [List.mem_singleton] at hpairs
    rw [hpairs] at ht
    obtain ⟨a, b, c, d⟩ := t
    rw [hte]
    exact ht

/-- C2 witness: a concrete sorted two-locus list under a constant
estimator. -/
theorem C2_witness :
    ∃ ijs : List (Nat × Nat), List.Pairwise IdxLt ijs ∧
      scan_ldpairs (fun _ _ => (1, 1)) [exampleLocusA, exampleLocusB] 10000
          (1/2) (1/2)
        = ijs.map (emitAt (fun _ _ => (1, 1)) [exampleLocusA, exampleLocusB]) ∧
      ∀ ij ∈ ijs, ij.1 < ij.2 ∧ ij.2 < ([exampleLocusA, exampleLocusB] : List Locus).length ∧
        (([exampleLocusA, exampleLocusB] : List Locus).getD ij.2 default).location
          - (([exampleLocusA, exampleLocusB] : List Locus).getD ij.1 default).location ≤ 10000 ∧
        (1/2 : ℚ) ≤ ((fun _ _ => ((1 : ℚ), (1 : ℚ)))
          (([exampleLocusA, exampleLocusB] : List Locus).getD ij.1 default).genos
          (([exampleLocusA, exampleLocusB] : List Locus).getD ij.2 default).genos).1 ∧
        (1/2 : ℚ) ≤ |((fun _ _ => ((1 : ℚ), (1 : ℚ)))
          (([exampleLocusA, exampleLocusB] : List Locus).getD ij.1 default).genos
          (([exampleLocusA, exampleLocusB] : List Locus).getD ij.2 default).genos).2| :=
  (C2_scan_ldpairs (fun _ _ => (1, 1)) [exampleLocusA, exampleLocusB] 10000
    (1/2) (1/2)
    (by
      refine List.pairwise_cons.mpr ⟨?_, List.pairwise_singleton _ _⟩
      intro b hb
      rw [List.mem_singleton] at hb
      rw [hb]
      exact Or.inl (by decide))).1

/-- If the minld accumulation loop runs to completion (`good = True`), then
every contributing population met its thresholds, the accumulated minima
bound the starting values and every contributing population's estimates,
and each accumulated minimum is either the starting value or attained by a
contributing population. -/
theorem minldFold_true (est : List Geno → List Geno → ℚ × ℚ) :
    ∀ (z : List ((ℚ × ℚ) × Locus × Locus)) (rd : ℚ × ℚ) (a b : ℚ),
      minldFold est z rd = (a, b, true) →
      (a ≤ rd.1 ∧ b ≤ rd.2) ∧
      (∀ e ∈ z, ¬(e.2.1.genos = [] ∨ e.2.2.genos = []) →
        e.1.2 ≤ (est e.2.1.genos e.2.2.genos).1 ∧
        e.1.1 ≤ |(est e.2.1.genos e.2.2.genos).2| ∧
        a ≤ (est e.2.1.genos e.2.2.genos).1 ∧
        b ≤ (est e.2.1.genos e.2.2.genos).2) ∧
      (a = rd.1 ∨ ∃ e ∈ z, ¬(e.2.1.genos = [] ∨ e.2.2.genos = []) ∧
        a = (est e.2.1.genos e.2.2.genos).1) ∧
      (b = rd.2 ∨ ∃ e ∈ z, ¬(e.2.1.genos = [] ∨ e.2.2.genos = []) ∧
        b = (est e.2.1.genos e.2.2.genos).2) := by
  intro z
  induction z with
  | nil =>
    intro rd a b h
    rw [minldFold] at h
    rw [Prod.mk.injEq, Prod.mk.injEq] at h
    obtain ⟨h1, h2, -⟩ := h
    refine ⟨⟨le_of_eq h1.symm, le_of_eq h2.symm⟩, ?_, Or.inl h1.symm,
      Or.inl h2.symm⟩
    intro e he
    exact absurd he (List.not_mem_nil e)
  | cons hd rest ih =>
    intro rd a b h
    obtain ⟨th, l1, l2⟩ := hd
    rw [minldFold] at h
    by_cases hg : l1.genos = [] ∨ l2.genos = []
    · rw [if_pos hg] at h
      obtain ⟨hb, hall, ha1, ha2⟩ := ih rd a b h
      refine ⟨hb, ?_, ?_, ?_⟩
      · intro e he hc
        rcases List.mem_cons.mp he with rfl | he2
        · exact absurd hg hc
        · exact hall e he2 hc
      · rcases ha1 with h1 | ⟨e, he, hc, hv⟩
        · exact Or.inl h1
        · exact Or.inr ⟨e, List.mem_cons_of_mem _ he, hc, hv⟩
      · rcases ha2 with h1 | ⟨e, he, hc, hv⟩
        · exact Or.inl h1
        · exact Or.inr ⟨e, List.mem_cons_of_mem _ he, hc, hv⟩
    · rw [if_neg hg] at h
      dsimp only at h
      by_cases hf : (est l1.genos l2.genos).1 < th.2 ∨
          |(est l1.genos l2.genos).2| < th.1
      · rw [if_pos hf] at h
        rw [Prod.mk.injEq, Prod.mk.injEq] at h
        exact absurd h.2.2 (by decide)
      · rw [if_neg hf] at h
        push_neg at hf
        obtain ⟨hb, hall, ha1, ha2⟩ := ih _ a b h
        have hba : a ≤ min rd.1 (est l1.genos l2.genos).1 := hb.1
        have hbb : b ≤ min rd.2 (est l1.genos l2.genos).2 := hb.2
        refine ⟨⟨hba.trans (min_le_left _ _), hbb.trans (min_le_left _ _),⟩,
          ?_, ?_, ?_⟩
        · intro e he hc
          rcases List.mem_cons.mp he with rfl | he2
          · exact ⟨hf.1, hf.2, hba.trans (min_le_right _ _),
              hbb.trans (min_le_right _ _)⟩
          · exact hall e he2 hc
        · rcases ha1 with h1 | ⟨e, he, hc, hv⟩
          · rcases min_cases rd.1 (est l1.genos l2.genos).1 with hm | hm
            · exact Or.inl (h1.trans hm.1)
            · exact Or.inr ⟨(th, l1, l2), List.mem_cons_self _ _, hg,
                h1.trans hm.1⟩
          · exact Or.inr ⟨e, List.mem_cons_of_mem _ he, hc, hv⟩
        · rcases ha2 with h1 | ⟨e, he, hc, hv⟩
          · rcases min_cases rd.2 (est l1.genos l2.genos).2 with hm | hm
            · exact Or.inl (h1.trans hm.1)
            · exact Or.inr ⟨(th, l1, l2), List.mem_cons_self _ _, hg,
                h1.trans hm.1⟩
          · exact Or.inr ⟨e, List.mem_cons_of_mem _ he, hc, hv⟩

/-- A successful minld emission decomposes into a completed accumulation
loop over a nonempty zip whose minimum r² beat the sentinel, with the
names taken from the last zipped entry. -/
theorem minldEmit_some {est : List Geno → List Geno → ℚ × ℚ}
    {ths : List (ℚ × ℚ)} {rowi rowj : List Locus}
    {t : LName × LName × ℚ × ℚ}
    (h : minldEmit est ths rowi rowj = some t) :
    ∃ a b e, (ths.zip (rowi.zip rowj)).getLast? = some e ∧
      minldFold est (ths.zip (rowi.zip rowj)) (10, 10) = (a, b, true) ∧
      a < 10 ∧ t = (e.2.1.name, e.2.2.name, a, b) := by
  unfold minldEmit at h
  dsimp only at h
  cases hz : (ths.zip (rowi.zip rowj)).getLast? with
  | none =>
    rw [hz] at h
    exact absurd h (by simp)
  | some e =>
    rw [hz] at h
    dsimp only at h
    by_cases hc : (minldFold est (ths.zip (rowi.zip rowj)) (10, 10)).1 < 10 ∧
        (minldFold est (ths.zip (rowi.zip rowj)) (10, 10)).2.2 = true
    · rw [if_pos hc] at h
      refine ⟨(minldFold est (ths.zip (rowi.zip rowj)) (10, 10)).1,
        (minldFold est (ths.zip (rowi.zip rowj)) (10, 10)).2.1, e, rfl, ?_,
        hc.1, (Option.some.injEq _ _ ▸ h).symm⟩
      rw [← hc.2]
    · rw [if_neg hc] at h
      exact absurd h (by simp)

/-- C5: under the minld policy, every tuple emitted by the
multi-population scanner comes from a pair of merged rows within the
distance window such that every population in which both loci have
genotype data meets that population's (D′, r²) thresholds, and the
emitted r² and D′ are each the minimum — attained and a lower bound —
of the per-population estimates over those contributing populations. -/
theorem C5_minld_policy (est : List Geno → List Geno → ℚ × ℚ)
    (ths : List (ℚ × ℚ)) (rows : List (List Locus)) (maxd : Int)
    (hest : ∀ g1 g2, (est g1 g2).2 < 10)
    (t : LName × LName × ℚ × ℚ)
    (ht : t ∈ scan_ldpairs_multi est ths rows maxd) :
    ∃ rowi ∈ rows, ∃ rowj ∈ rows,
      rowLocation rowj - rowLocation rowi ≤ maxd ∧
      minldEmit est ths rowi rowj = some t ∧
      (∀ e ∈ ths.zip (rowi.zip rowj),
        ¬(e.2.1.genos = [] ∨ e.2.2.genos = []) →
        e.1.2 ≤ (est e.2.1.genos e.2.2.genos).1 ∧
        e.1.1 ≤ |(est e.2.1.genos e.2.2.genos).2| ∧
        t.2.2.1 ≤ (est e.2.1.genos e.2.2.genos).1 ∧
        t.2.2.2 ≤ (est e.2.1.genos e.2.2.genos).2) ∧
      (∃ e ∈ ths.zip (rowi.zip rowj),
        ¬(e.2.1.genos = [] ∨ e.2.2.genos = []) ∧
        t.2.2.1 = (est e.2.1.genos e.2.2.genos).1) ∧
      (∃ e ∈ ths.zip (rowi.zip rowj),
        ¬(e.2.1.genos = [] ∨ e.2.2.genos = []) ∧
        t.2.2.2 = (est e.2.1.genos e.2.2.genos).2) := by
  have hscan : ∀ (rows : List (List Locus)) (maxd : Int)
      (t : LName × LName × ℚ × ℚ), t ∈ scan_ldpairs_multi est ths rows maxd →
      ∃ rowi ∈ rows, ∃ rowj ∈ rows,
        rowLocation rowj - rowLocation rowi ≤ maxd ∧
        minldEmit est ths rowi rowj = some t := by
    intro rows
    induction rows with
    | nil =>
      intro maxd t ht
      rw [scan_ldpairs_multi] at ht
      exact absurd ht (List.not_mem_nil t)
    | cons row1 rest ih =>
      intro maxd t ht
      rw [scan_ldpairs_multi] at ht
      rcases List.mem_append.mp ht with h1 | h1
      · obtain ⟨row2, hrow2, hemit⟩ := List.mem_filterMap.mp h1
        have hdec := List.mem_takeWhile_imp hrow2
        have hpred : rowLocation row2 - rowLocation row1 ≤ maxd :=
          of_decide_eq_true hdec
        exact ⟨row1, List.mem_cons_self _ _, row2,
          List.mem_cons_of_mem _ ((List.takeWhile_sublist _).mem hrow2),
          hpred, hemit⟩
      · obtain ⟨rowi, hi, rowj, hj, hd, he⟩ := ih maxd t h1
        exact ⟨rowi, List.mem_cons_of_mem _ hi, rowj,
          List.mem_cons_of_mem _ hj, hd, he⟩
  obtain ⟨rowi, hi, rowj, hj, hd, he⟩ := hscan rows maxd t ht
  obtain ⟨a, b, e, _, hfold, ha10, hte⟩ := minldEmit_some he
  obtain ⟨_, hall, ha1, ha2⟩ := minldFold_true est _ _ a b hfold
  have hta : t.2.2.1 = a := by rw [hte]
  have htb : t.2.2.2 = b := by rw [hte]
  have hatt1 : ∃ e ∈ ths.zip (rowi.zip rowj),
      ¬(e.2.1.genos = [] ∨ e.2.2.genos = []) ∧
      a = (est e.2.1.genos e.2.2.genos).1 := by
    rcases ha1 with h1 | h1
    · exact absurd (h1 ▸ ha10) (by norm_num)
    · exact h1
  have hatt2 : ∃ e ∈ ths.zip (rowi.zip rowj),
      ¬(e.2.1.genos = [] ∨ e.2.2.genos = []) ∧
      b = (est e.2.1.genos e.2.2.genos).2 := by
    rcases ha2 with h1 | h1
    · obtain ⟨e0, he0, hc0, _⟩ := hatt1
      have hble : b ≤ (est e0.2.1.genos e0.2.2.genos).2 := (hall e0 he0 hc0).2.2.2
      have : b < 10 := lt_of_le_of_lt hble (hest _ _)
      exact absurd (h1 ▸ this) (by norm_num)
    · exact h1
  refine ⟨rowi, hi, rowj, hj, hd, he, ?_, ?_, ?_⟩
  · intro e2 he2 hc2
    obtain ⟨x1, x2, x3, x4⟩ := hall e2 he2 hc2
    exact ⟨x1, x2, hta ▸ x3, htb ▸ x4⟩
  · obtain ⟨e2, he2, hc2, hv2⟩ := hatt1
    exact ⟨e2, he2, hc2, hta ▸ hv2⟩
  · obtain ⟨e2, he2, hc2, hv2⟩ := hatt2
    exact ⟨e2, he2, hc2, htb ▸ hv2⟩

/-- C5 witness: a two-row, one-population scan under a constant estimator. -/
theorem C5_witness :
    ∃ rowi ∈ [[exampleLocusA], [exampleLocusB]],
      ∃ rowj ∈ [[exampleLocusA], [exampleLocusB]],
      rowLocation rowj - rowLocation rowi ≤ 10000 ∧
      minldEmit (fun _ _ => ((1 : ℚ), (1 : ℚ))) [(1/2, 1/2)] rowi rowj
        = some ("rs1", "rs2", 1, 1) ∧
      (∀ e ∈ ([((1 : ℚ)/2, (1 : ℚ)/2)]).zip (rowi.zip rowj),
        ¬(e.2.1.genos = [] ∨ e.2.2.genos = []) →
        e.1.2 ≤ ((fun _ _ => ((1 : ℚ), (1 : ℚ))) e.2.1.genos e.2.2.genos).1 ∧
        e.1.1 ≤ |((fun _ _ => ((1 : ℚ), (1 : ℚ))) e.2.1.genos e.2.2.genos).2| ∧
        (1 : ℚ) ≤ ((fun _ _ => ((1 : ℚ), (1 : ℚ))) e.2.1.genos e.2.2.genos).1 ∧
        (1 : ℚ) ≤ ((fun _ _ => ((1 : ℚ), (1 : ℚ))) e.2.1.genos e.2.2.genos).2) ∧
      (∃ e ∈ ([((1 : ℚ)/2, (1 : ℚ)/2)]).zip (rowi.zip rowj),
        ¬(e.2.1.genos = [] ∨ e.2.2.genos = []) ∧
        (1 : ℚ) = ((fun _ _ => ((1 : ℚ), (1 : ℚ))) e.2.1.genos e.2.2.genos).1) ∧
      (∃ e ∈ ([((1 : ℚ)/2, (1 : ℚ)/2)]).zip (rowi.zip rowj),
        ¬(e.2.1.genos = [] ∨ e.2.2.genos = []) ∧
        (1 : ℚ) = ((fun _ _ => ((1 : ℚ), (1 : ℚ))) e.2.1.genos e.2.2.genos).2) :=
  C5_minld_policy (fun _ _ => ((1 : ℚ), (1 : ℚ))) [(1/2, 1/2)]
    [[exampleLocusA], [exampleLocusB]] 10000
    (fun _ _ => by norm_num) ("rs1", "rs2", 1, 1) (by decide)

/-- `dict` lookup on a cons cell, with the key test as a proposition. -/
theorem lookup_cons' {β : Type} {a k : LName} {b : β} {es : List (LName × β)} :
    List.lookup a ((k, b) :: es) = if a = k then some b else List.lookup a es := by
  rw [List.lookup_cons]
  by_cases h : a = k
  · rw [if_pos h]
    have hb : (a == k) = true := beq_iff_eq.mpr h
    rw [hb]
  · rw [if_neg h]
    have hb : (a == k) = false := beq_eq_false_iff_ne.mpr h
    rw [hb]

/-- A successful lookup's key is among the stored keys. -/
theorem lookup_mem_keys {β : Type} {bs : List (LName × β)} {k : LName} {b : β}
    (h : bs.lookup k = some b) : k ∈ bs.map Prod.fst := by
  induction bs with
  | nil => cases h
  | cons p rest ih =>
    obtain ⟨k1, b1⟩ := p
    rw [lookup_cons'] at h
    by_cases hk : k = k1
    · exact hk ▸ List.mem_cons_self _ _
    · rw [if_neg hk] at h
      exact List.mem_cons_of_mem _ (ih h)

/-- A successful lookup's binding is one of the stored pairs. -/
theorem lookup_mem {β : Type} {bs : List (LName × β)} {k : LName} {b : β}
    (h : bs.lookup k = some b) : (k, b) ∈ bs := by
  induction bs with
  | nil => cases h
  | cons p rest ih =>
    obtain ⟨k1, b1⟩ := p
    rw [lookup_cons'] at h
    by_cases hk : k = k1
    · rw [if_pos hk] at h
      injection h with hb
      rw [hk, ← hb]
      exact List.mem_cons_self _ _
    · rw [if_neg hk] at h
      exact List.mem_cons_of_mem _ (ih h)

/-- A stored key looks up successfully. -/
theorem mem_keys_lookup_isSome {β : Type} {bs : List (LName × β)} {k : LName}
    (h : k ∈ bs.map Prod.fst) : (bs.lookup k).isSome := by
  induction bs with
  | nil => cases h
  | cons p rest ih =>
    obtain ⟨k1, b1⟩ := p
    rw [lookup_cons']
    by_cases hk : k = k1
    · rw [if_pos hk]; rfl
    · rw [if_neg hk]
      rcases List.mem_cons.mp h with h1 | h1
      · exact absurd h1 hk
      · exact ih h1

/-- `updateBin` keeps the stored keys in place. -/
theorem keys_updateBin (bs : Binsets) (k : LName) (f : Bin → Bin) :
    (updateBin bs k f).map Prod.fst = bs.map Prod.fst := by
  unfold updateBin
  rw [List.map_map]
  apply List.map_congr_left
  intro p _
  by_cases hp : p.1 = k
  · simp [hp]
  · simp [hp]

/-- `reduce_bin` keeps the stored keys in place. -/
theorem keys_reduce_bin (bs : Binsets) (o t : LName) (m : ℚ) :
    (reduce_bin bs o t m).map Prod.fst = bs.map Prod.fst := by
  unfold reduce_bin
  by_cases h : (bs.lookup o).isSome
  · rw [if_pos h]; exact keys_updateBin ..
  · rw [if_neg h]

/-- A fold of `reduce_bin` steps keeps the stored keys in place. -/
theorem keys_foldl_reduce (t : LName) (m : ℚ) :
    ∀ (l : List LName) (bs : Binsets),
      ((l.foldl (fun acc x => reduce_bin acc x t m) bs).map Prod.fst)
        = bs.map Prod.fst := by
  intro l
  induction l with
  | nil => intro bs; rfl
  | cons x rest ih =>
    intro bs
    rw [List.foldl_cons, ih, keys_reduce_bin]

/-- Filtering a dict by key commutes with taking the keys. -/
theorem keys_filter (bs : Binsets) (k : LName) :
    (bs.filter (fun p => p.1 != k)).map Prod.fst
      = (bs.map Prod.fst).filter (fun x => x != k) := by
  rw [List.filter_map]
  rfl

/-- Removing one occurrence of a present key from a duplicate-free list is
a permutation-preserving extraction. -/
theorem perm_cons_filter_ne {l : List LName} {k : LName} (hn : l.Nodup)
    (hm : k ∈ l) : l.Perm (k :: l.filter (fun x => x != k)) := by
  induction l with
  | nil => cases hm
  | cons a t ih =>
    obtain ⟨hna, hnt⟩ := List.nodup_cons.mp hn
    rcases List.mem_cons.mp hm with rfl | hm2
    · have ht : t.filter (fun x => x != k) = t := by
        apply List.filter_eq_self.mpr
        intro x hx
        exact bne_iff_ne.mpr (fun he => hna (he ▸ hx))
      rw [List.filter_cons, if_neg (by simp), ht]
    · have ha : (a != k) = true := bne_iff_ne.mpr (fun he => hna (he ▸ hm2))
      rw [List.filter_cons, if_pos ha]
      exact (List.Perm.cons a (ih hnt hm2)).trans (List.Perm.swap _ _ _)

/-- Lookup of a different key passes through a key filter. -/
theorem lookup_filter_ne {bs : Binsets} {j k : LName} (h : j ≠ k) :
    (bs.filter (fun p => p.1 != k)).lookup j = bs.lookup j := by
  induction bs with
  | nil => rfl
  | cons p rest ih =>
    obtain ⟨k1, b1⟩ := p
    rw [List.filter_cons]
    by_cases hk : k1 = k
    · rw [if_neg (by simp [hk]), lookup_cons', if_neg (hk ▸ h), ih]
    · rw [if_pos (bne_iff_ne.mpr hk), lookup_cons', lookup_cons']
      by_cases hj : j = k1
      · rw [if_pos hj, if_pos hj]
      · rw [if_neg hj, if_neg hj, ih]

/-- The filtered-out key no longer looks up. -/
theorem lookup_filter_self (bs : Binsets) (k : LName) :
    (bs.filter (fun p => p.1 != k)).lookup k = none := by
  induction bs with
  | nil => rfl
  | cons p rest ih =>
    obtain ⟨k1, b1⟩ := p
    rw [List.filter_cons]
    by_cases hk : k1 = k
    · rw [if_neg (by simp [hk])]
      exact ih
    · rw [if_pos (bne_iff_ne.mpr hk), lookup_cons', if_neg (fun he => hk he.symm)]
      exact ih

/-- Bind on a successful `Except` computation. -/
theorem exceptBind_ok {ε α β : Type} (a : α) (f : α → Except ε β) :
    (Except.ok a >>= f) = f a := rfl

/-- Bind on a failed `Except` computation. -/
theorem exceptBind_error {ε α β : Type} (e : ε) (f : α → Except ε β) :
    ((Except.error e : Except ε α) >>= f) = Except.error e := rfl

/-- Inversion of a successful `dict.pop`. -/
theorem popBin_ok {bs : Binsets} {k : LName} {bin : Bin} {bs1 : Binsets}
    (h : popBin bs k = .ok (bin, bs1)) :
    bs.lookup k = some bin ∧ bs1 = bs.filter (fun p => p.1 != k) := by
  unfold popBin at h
  cases hl : bs.lookup k with
  | none => rw [hl] at h; exact Except.noConfusion h
  | some b =>
    rw [hl] at h
    injection h with h2
    rw [Prod.mk.injEq] at h2
    exact ⟨by rw [h2.1], h2.2.symm⟩

/-- Inversion of one round of the withdrawal loop of
`NaiveBinSequence.pop`. -/
theorem popLoop_cons_ok {loci : LocusMap} {largest : List LName}
    {lname : LName} {rest : List LName} {bs : Binsets}
    {bins : List (LName × Bin)} {bs3 : Binsets}
    (h : popLoop loci largest (lname :: rest) bs = .ok (bins, bs3)) :
    ∃ bin bs1 maf bins2,
      popBin bs lname = .ok (bin, bs1) ∧
      mafOf loci lname = .ok maf ∧
      popLoop loci largest rest
        ((bin.members.filter (fun x => decide (x ∉ largest))).foldl
          (fun acc lname2 => reduce_bin acc lname2 lname maf) bs1)
        = .ok (bins2, bs3) ∧
      bins = (lname, bin) :: bins2 := by
  rw [popLoop] at h
  cases hp : popBin bs lname with
  | error e =>
    rw [hp, exceptBind_error] at h
    exact Except.noConfusion h
  | ok pr =>
    obtain ⟨bin, bs1⟩ := pr
    rw [hp, exceptBind_ok] at h
    dsimp only at h
    cases hm : mafOf loci lname with
    | error e =>
      rw [hm, exceptBind_error] at h
      exact Except.noConfusion h
    | ok maf =>
      rw [hm, exceptBind_ok] at h
      cases hr : popLoop loci largest rest
          ((bin.members.filter (fun x => decide (x ∉ largest))).foldl
            (fun acc lname2 => reduce_bin acc lname2 lname maf) bs1) with
      | error e =>
        rw [hr, exceptBind_error] at h
        exact Except.noConfusion h
      | ok pr2 =>
        obtain ⟨bins2, bs3x⟩ := pr2
        rw [hr, exceptBind_ok] at h
        dsimp only at h
        injection h with h2
        rw [Prod.mk.injEq] at h2
        exact ⟨bin, bs1, maf, bins2, rfl, rfl, by rw [hr, h2.2], h2.1.symm⟩

/-- The withdrawal loop pops exactly the requested names, in order, and
extracts them from the key multiset of the binsets dict. -/
theorem popLoop_keys_perm (loci : LocusMap) (largest : List LName) :
    ∀ (names : List LName) (bs : Binsets) (bins : List (LName × Bin))
      (bs3 : Binsets),
      popLoop loci largest names bs = .ok (bins, bs3) →
      (bs.map Prod.fst).Nodup →
      bins.map Prod.fst = names ∧
      (bs.map Prod.fst).Perm (names ++ bs3.map Prod.fst) ∧
      (bs3.map Prod.fst).Nodup := by
  intro names
  induction names with
  | nil =>
    intro bs bins bs3 h hn
    rw [popLoop] at h
    injection h with h2
    rw [Prod.mk.injEq] at h2
    rw [← h2.1, ← h2.2]
    exact ⟨rfl, List.Perm.refl _, hn⟩
  | cons lname rest ih =>
    intro bs bins bs3 h hn
    obtain ⟨bin, bs1, maf, bins2, hp, _, hr, hbins⟩ := popLoop_cons_ok h
    obtain ⟨hlook, hbs1⟩ := popBin_ok hp
    have hkeys2 : (((bin.members.filter (fun x => decide (x ∉ largest))).foldl
        (fun acc lname2 => reduce_bin acc lname2 lname maf) bs1).map Prod.fst)
        = (bs.map Prod.fst).filter (fun x => x != lname) := by
      rw [keys_foldl_reduce, hbs1, keys_filter]
    have hn2 : ((((bin.members.filter (fun x => decide (x ∉ largest))).foldl
        (fun acc lname2 => reduce_bin acc lname2 lname maf) bs1)).map
        Prod.fst).Nodup := by
      rw [hkeys2]
      exact hn.filter _
    obtain ⟨hb2, hperm2, hn3⟩ := ih _ bins2 bs3 hr hn2
    refine ⟨by rw [hbins, List.map_cons, hb2], ?_, hn3⟩
    have h1 : (bs.map Prod.fst).Perm
        (lname :: (bs.map Prod.fst).filter (fun x => x != lname)) :=
      perm_cons_filter_ne hn (lookup_mem_keys hlook)
    rw [← hkeys2] at h1
    exact h1.trans (List.Perm.cons lname hperm2)

/-- The tags/others partition of `build_result` rearranges exactly the
popped member names. -/
theorem buildTags_perm (largest : Bin) (bins : List (LName × Bin)) :
    ((buildTags largest bins).1 ++ (buildTags largest bins).2.1).Perm
      (bins.map Prod.fst) := by
  have haux : ∀ (l : List (LName × Bin)) (acc : List LName × List LName × Nat),
      ((l.foldl (fun acc p =>
        if can_tag p.2 largest then
          (acc.1 ++ [p.1], acc.2.1,
           if largest.disposition = Bin.INCLUDE_TYPED ∨
              largest.disposition = Bin.INCLUDE_UNTYPED then acc.2.2
           else max acc.2.2 p.2.maxcovered)
        else (acc.1, acc.2.1 ++ [p.1], acc.2.2)) acc).1 ++
       (l.foldl (fun acc p =>
        if can_tag p.2 largest then
          (acc.1 ++ [p.1], acc.2.1,
           if largest.disposition = Bin.INCLUDE_TYPED ∨
              largest.disposition = Bin.INCLUDE_UNTYPED then acc.2.2
           else max acc.2.2 p.2.maxcovered)
        else (acc.1, acc.2.1 ++ [p.1], acc.2.2)) acc).2.1).Perm
        ((acc.1 ++ acc.2.1) ++ l.map Prod.fst) := by
    intro l
    induction l with
    | nil => intro acc; simp
    | cons p t ih =>
      intro acc
      rw [List.foldl_cons]
      by_cases hc : can_tag p.2 largest
      · rw [if_pos hc]
        refine (ih _).trans ?_
        have h1 : ((acc.1 ++ [p.1]) ++ acc.2.1) = acc.1 ++ (p.1 :: acc.2.1) := by
          simp
        rw [List.map_cons, h1]
        exact (List.perm_middle.append_right _).trans List.perm_middle.symm
      · rw [if_neg hc]
        refine (ih _).trans ?_
        rw [List.map_cons]
        have h1 : (acc.1 ++ (acc.2.1 ++ [p.1])) ++ t.map Prod.fst
            = (acc.1 ++ acc.2.1) ++ (p.1 :: t.map Prod.fst) := by simp
        rw [h1]
  have := haux bins ([], [], largest.maxcovered)
  simpa [buildTags] using this

/-- The tags of `build_result` are exactly the popped members whose own
candidate bin can tag the reference, in pop order. -/
theorem buildTags_tags (largest : Bin) (bins : List (LName × Bin)) :
    (buildTags largest bins).1
      = (bins.filter (fun p => decide (can_tag p.2 largest))).map Prod.fst := by
  have haux : ∀ (l : List (LName × Bin)) (acc : List LName × List LName × Nat),
      (l.foldl (fun acc p =>
        if can_tag p.2 largest then
          (acc.1 ++ [p.1], acc.2.1,
           if largest.disposition = Bin.INCLUDE_TYPED ∨
              largest.disposition = Bin.INCLUDE_UNTYPED then acc.2.2
           else max acc.2.2 p.2.maxcovered)
        else (acc.1, acc.2.1 ++ [p.1], acc.2.2)) acc).1
        = acc.1 ++ (l.filter (fun p => decide (can_tag p.2 largest))).map
            Prod.fst := by
    intro l
    induction l with
    | nil => intro acc; simp
    | cons p t ih =>
      intro acc
      rw [List.foldl_cons, List.filter_cons]
      by_cases hc : can_tag p.2 largest
      · rw [if_pos hc, if_pos (decide_eq_true hc), ih]
        simp
      · rw [if_neg hc, if_neg (by simpa using hc), ih]
  have := haux bins ([], [], largest.maxcovered)
  simpa [buildTags] using this

/-- Inversion of a successful `build_result`: the tags and others are the
partition of the popped bins, the requirement is the policy value at the
bin size, the assertion `len(result.tags) >= result.tags_required` holds,
and the bin was nonempty. -/
theorem build_result_ok {lname : LName} {largest : Bin}
    {bins : List (LName × Bin)} {lddata : LDData} {includes : Includes}
    {req : Option (Nat → Nat)} {result : BinResult} {ld2 : LDData}
    (h : build_result lname largest bins lddata includes req
      = .ok (result, ld2)) :
    result.tags = (buildTags largest bins).1 ∧
    result.others = (buildTags largest bins).2.1 ∧
    result.tags_required = req.elim 1 (fun f => f largest.members.length) ∧
    result.tags_required ≤ result.tags.length ∧
    largest.members.length ≠ 0 := by
  unfold build_result at h
  dsimp only at h
  split at h
  next h0 => exact Except.noConfusion h
  next h0 =>
    split at h
    next h1 => exact Except.noConfusion h
    next h1 =>
      injection h with h2
      rw [Prod.mk.injEq] at h2
      obtain ⟨h2a, h2b⟩ := h2
      subst h2a
      exact ⟨rfl, rfl, by cases req <;> rfl, Nat.le_of_not_lt h1, h0⟩

/-- `split_bin` keeps the stored keys in place. -/
theorem split_bin_keys {loci : LocusMap} {bs : Binsets} {ld : LDData}
    {ref : LName} {largest : Bin} {bs2 : Binsets}
    (h : split_bin loci bs ld ref largest = .ok bs2) :
    bs2.map Prod.fst = bs.map Prod.fst := by
  unfold split_bin at h
  cases hk : splitKeys bs ld ref largest with
  | error e =>
    rw [hk, exceptBind_error] at h
    exact Except.noConfusion h
  | ok l =>
    rw [hk, exceptBind_ok] at h
    cases hs : sortKeys l with
    | nil =>
      rw [hs] at h
      exact Except.noConfusion h
    | cons a t =>
      obtain ⟨c, r, lname2⟩ := a
      rw [hs] at h
      dsimp only at h
      cases hm1 : mafOf loci lname2 with
      | error e =>
        rw [hm1, exceptBind_error] at h
        exact Except.noConfusion h
      | ok maf1 =>
        rw [hm1, exceptBind_ok] at h
        cases hm2 : mafOf loci ref with
        | error e =>
          rw [hm2, exceptBind_error] at h
          exact Except.noConfusion h
        | ok maf2 =>
          rw [hm2, exceptBind_ok] at h
          injection h with h2
          rw [← h2, keys_reduce_bin, keys_reduce_bin]

/-- A complete binner run distributes the key multiset of the starting
binsets over the tags and others of the emitted results. -/
theorem runBinner_partition (loci : LocusMap) (includes : Includes)
    (req : Option (Nat → Nat)) :
    ∀ (fuel : Nat) (bs : Binsets) (ld : LDData) (rs : List BinResult),
      (bs.map Prod.fst).Nodup →
      runBinner loci includes req fuel bs ld = .done rs →
      ((rs.map (fun r => r.tags ++ r.others)).flatten).Perm
        (bs.map Prod.fst) := by
  intro fuel
  induction fuel with
  | zero =>
    intro bs ld rs hn h
    rw [runBinner] at h
    by_cases he : bs.isEmpty
    · rw [if_pos he] at h
      injection h with h2
      rw [← h2, List.isEmpty_iff.mp he]
      simp
    · rw [if_neg he] at h
      exact RunOut.noConfusion h
  | succ fuel ih =>
    intro bs ld rs hn h
    rw [runBinner] at h
    cases hpk : peek bs with
    | none =>
      rw [hpk] at h
      dsimp only at h
      injection h with h2
      have hbs : bs = [] := by
        cases bs with
        | nil => rfl
        | cons p r =>
          rw [peek] at hpk
          exact Option.noConfusion hpk
      rw [← h2, hbs]
      simp
    | some ref =>
      rw [hpk] at h
      dsimp only at h
      cases hlk : bs.lookup ref with
      | none =>
        rw [hlk] at h
        exact RunOut.noConfusion h
      | some largest =>
        rw [hlk] at h
        dsimp only at h
        cases hms : must_split_bin largest bs req with
        | error e =>
          rw [hms] at h
          exact RunOut.noConfusion h
        | ok b =>
          rw [hms] at h
          cases b with
          | true =>
            dsimp only at h
            cases hsp : split_bin loci bs ld ref largest with
            | error e =>
              rw [hsp] at h
              exact RunOut.noConfusion h
            | ok bs2 =>
              rw [hsp] at h
              dsimp only at h
              have hk2 := split_bin_keys hsp
              have hres := ih bs2 ld rs (by rw [hk2]; exact hn) h
              rw [hk2] at hres
              exact hres
          | false =>
            dsimp only at h
            cases hpl : popLoop loci largest.members largest.members bs with
            | error e =>
              rw [hpl] at h
              exact RunOut.noConfusion h
            | ok pr =>
              obtain ⟨bins, bs2⟩ := pr
              rw [hpl] at h
              dsimp only at h
              cases hbr : build_result ref largest bins ld includes req with
              | error e =>
                rw [hbr] at h
                exact RunOut.noConfusion h
              | ok pr2 =>
                obtain ⟨result, ld2⟩ := pr2
                rw [hbr] at h
                dsimp only at h
                cases hrec : runBinner loci includes req fuel bs2 ld2 with
                | done rs2 =>
                  rw [hrec] at h
                  dsimp only at h
                  injection h with h2
                  obtain ⟨hbinsfst, hperm, hnod2⟩ :=
                    popLoop_keys_perm loci largest.members largest.members bs
                      bins bs2 hpl hn
                  obtain ⟨htags, hoth, -, -, -⟩ := build_result_ok hbr
                  have hflat := ih bs2 ld2 rs2 hnod2 hrec
                  rw [← h2, List.map_cons, List.flatten_cons]
                  have h3 : (result.tags ++ result.others).Perm
                      (bins.map Prod.fst) := by
                    rw [htags, hoth]
                    exact buildTags_perm largest bins
                  rw [hbinsfst] at h3
                  exact (h3.append hflat).trans hperm.symm
                | fuelOut rs2 =>
                  rw [hrec] at h
                  exact RunOut.noConfusion h
                | err e rs2 =>
                  rw [hrec] at h
                  exact RunOut.noConfusion h

/-- Adding to a `set` keeps the old elements. -/
theorem mem_setAdd_of_mem {s : List LName} {x y : LName} (h : x ∈ s) :
    x ∈ setAdd s y := by
  unfold setAdd
  by_cases hy : y ∈ s
  · rw [if_pos hy]; exact h
  · rw [if_neg hy]; exact List.mem_append_left _ h

/-- `updateBin` preserves the binsets invariant — duplicate-free keys, each
stored under a name that is a member of its own bin — whenever the update
keeps the stored key a member. -/
theorem good_updateBin {bs : Binsets} {k : LName} {f : Bin → Bin}
    (hg : (bs.map Prod.fst).Nodup ∧ ∀ p ∈ bs, p.1 ∈ p.2.members)
    (hf : ∀ b : Bin, k ∈ b.members → k ∈ (f b).members) :
    ((updateBin bs k f).map Prod.fst).Nodup ∧
    ∀ p ∈ updateBin bs k f, p.1 ∈ p.2.members := by
  refine ⟨by rw [keys_updateBin]; exact hg.1, ?_⟩
  intro p hp
  obtain ⟨q, hq, hqe⟩ := List.mem_map.mp hp
  by_cases hk : q.1 = k
  · rw [if_pos hk] at hqe
    rw [← hqe]
    exact hk ▸ hf q.2 (hk ▸ hg.2 q hq)
  · rw [if_neg hk] at hqe
    rw [← hqe]
    exact hg.2 q hq

/-- Appending a fresh singleton bin preserves the binsets invariant. -/
theorem good_append_singleton {bs : Binsets} {k : LName} {maf : ℚ}
    (hg : (bs.map Prod.fst).Nodup ∧ ∀ p ∈ bs, p.1 ∈ p.2.members)
    (hk : ¬(bs.lookup k).isSome) :
    (((bs ++ [(k, Bin.make [k] maf Bin.NORMAL 0)]).map Prod.fst).Nodup) ∧
    ∀ p ∈ bs ++ [(k, Bin.make [k] maf Bin.NORMAL 0)], p.1 ∈ p.2.members := by
  have hknot : k ∉ bs.map Prod.fst := fun hm => hk (mem_keys_lookup_isSome hm)
  constructor
  · rw [List.map_append]
    rw [List.nodup_append]
    refine ⟨hg.1, List.nodup_singleton _, ?_⟩
    intro a ha hb
    simp only [List.map_cons, List.map_nil, List.mem_singleton] at hb
    exact hknot (hb ▸ ha)
  · intro p hp
    rcases List.mem_append.mp hp with h1 | h1
    · exact hg.2 p h1
    · rw [List.mem_singleton] at h1
      rw [h1]
      exact List.mem_cons_self _ _

/-- One LD pair consumed by `build_binsets` preserves the binsets
invariant. -/
theorem bbPair_good {loci : LocusMap} {st st2 : Binsets × LDData}
    {t : LName × LName × ℚ × ℚ} (h : bbPair loci st t = some st2)
    (hg : (st.1.map Prod.fst).Nodup ∧ ∀ p ∈ st.1, p.1 ∈ p.2.members) :
    (st2.1.map Prod.fst).Nodup ∧ ∀ p ∈ st2.1, p.1 ∈ p.2.members := by
  unfold bbPair at h
  dsimp only at h
  cases h1 : loci.lookup t.1 with
  | none => rw [h1] at h; simp at h
  | some m1 =>
    cases h2 : loci.lookup t.2.1 with
    | none => rw [h1, h2] at h; simp at h
    | some m2 =>
      rw [h1, h2] at h
      simp only [Option.bind_eq_bind, Option.some_bind, Option.some.injEq] at h
      rw [← h]
      dsimp only
      have hg1 : ((if (st.1.lookup t.1).isSome then st.1
          else st.1 ++ [(t.1, Bin.make [t.1] m1 Bin.NORMAL 0)]).map
          Prod.fst).Nodup ∧
          ∀ p ∈ (if (st.1.lookup t.1).isSome then st.1
            else st.1 ++ [(t.1, Bin.make [t.1] m1 Bin.NORMAL 0)]),
            p.1 ∈ p.2.members := by
        by_cases hc : (st.1.lookup t.1).isSome
        · rw [if_pos hc]; exact hg
        · rw [if_neg hc]; exact good_append_singleton hg hc
      have hg2 : (((if ((if (st.1.lookup t.1).isSome then st.1
          else st.1 ++ [(t.1, Bin.make [t.1] m1 Bin.NORMAL 0)]).lookup
            t.2.1).isSome then
          (if (st.1.lookup t.1).isSome then st.1
            else st.1 ++ [(t.1, Bin.make [t.1] m1 Bin.NORMAL 0)])
          else (if (st.1.lookup t.1).isSome then st.1
            else st.1 ++ [(t.1, Bin.make [t.1] m1 Bin.NORMAL 0)]) ++
              [(t.2.1, Bin.make [t.2.1] m2 Bin.NORMAL 0)]).map Prod.fst).Nodup)
          ∧ ∀ p ∈ (if ((if (st.1.lookup t.1).isSome then st.1
            else st.1 ++ [(t.1, Bin.make [t.1] m1 Bin.NORMAL 0)]).lookup
              t.2.1).isSome then
            (if (st.1.lookup t.1).isSome then st.1
              else st.1 ++ [(t.1, Bin.make [t.1] m1 Bin.NORMAL 0)])
            else (if (st.1.lookup t.1).isSome then st.1
              else st.1 ++ [(t.1, Bin.make [t.1] m1 Bin.NORMAL 0)]) ++
                [(t.2.1, Bin.make [t.2.1] m2 Bin.NORMAL 0)]),
            p.1 ∈ p.2.members := by
        by_cases hc : ((if (st.1.lookup t.1).isSome then st.1
            else st.1 ++ [(t.1, Bin.make [t.1] m1 Bin.NORMAL 0)]).lookup
              t.2.1).isSome
        · rw [if_pos hc]; exact hg1
        · rw [if_neg hc]; exact good_append_singleton hg1 hc
      apply good_updateBin
      · apply good_updateBin hg2
        intro b hb
        exact mem_setAdd_of_mem hb
      · intro b hb
        exact mem_setAdd_of_mem hb

/-- The pair-consumption folds of `build_binsets` preserve the binsets
invariant. -/
theorem foldlM_bbPair_good (loci : LocusMap) :
    ∀ (pairs : List (LName × LName × ℚ × ℚ)) (st st2 : Binsets × LDData),
      pairs.foldlM (bbPair loci) st = some st2 →
      (st.1.map Prod.fst).Nodup ∧ (∀ p ∈ st.1, p.1 ∈ p.2.members) →
      (st2.1.map Prod.fst).Nodup ∧ ∀ p ∈ st2.1, p.1 ∈ p.2.members := by
  intro pairs
  induction pairs with
  | nil =>
    intro st st2 h hg
    rw [List.foldlM_nil] at h
    cases h
    exact hg
  | cons t tl ih =>
    intro st st2 h hg
    rw [List.foldlM_cons] at h
    cases hb : bbPair loci st t with
    | none => rw [hb] at h; simp at h
    | some st1 =>
      rw [hb] at h
      simp only [Option.bind_eq_bind, Option.some_bind] at h
      exact ih st1 st2 h (bbPair_good hb hg)

/-- The singleton-creation pass of `build_binsets` preserves the binsets
invariant. -/
theorem good_singleton_pass :
    ∀ (loci : LocusMap) (bs : Binsets),
      (bs.map Prod.fst).Nodup ∧ (∀ p ∈ bs, p.1 ∈ p.2.members) →
      ((loci.foldl (fun bs p =>
        if (bs.lookup p.1).isSome then bs
        else bs ++ [(p.1, Bin.make [p.1] p.2 Bin.NORMAL 0)]) bs).map
        Prod.fst).Nodup ∧
      ∀ p ∈ loci.foldl (fun bs p =>
        if (bs.lookup p.1).isSome then bs
        else bs ++ [(p.1, Bin.make [p.1] p.2 Bin.NORMAL 0)]) bs,
        p.1 ∈ p.2.members := by
  intro loci
  induction loci with
  | nil => intro bs hg; exact hg
  | cons q tl ih =>
    intro bs hg
    rw [List.foldl_cons]
    apply ih
    by_cases hc : (bs.lookup q.1).isSome
    · rw [if_pos hc]; exact hg
    · rw [if_neg hc]; exact good_append_singleton hg hc

/-- A fold of member-preserving bin updates preserves the binsets
invariant. -/
theorem good_foldl_mark (g : Bin → Bin)
    (hgm : ∀ (b : Bin), (g b).members = b.members) :
    ∀ (l : List LName) (bs : Binsets),
      (bs.map Prod.fst).Nodup ∧ (∀ p ∈ bs, p.1 ∈ p.2.members) →
      ((l.foldl (fun bs lname =>
        if (bs.lookup lname).isSome then updateBin bs lname g else bs) bs).map
        Prod.fst).Nodup ∧
      ∀ p ∈ l.foldl (fun bs lname =>
        if (bs.lookup lname).isSome then updateBin bs lname g else bs) bs,
        p.1 ∈ p.2.members := by
  intro l
  induction l with
  | nil => intro bs hg; exact hg
  | cons x tl ih =>
    intro bs hg
    rw [List.foldl_cons]
    apply ih
    by_cases hc : (bs.lookup x).isSome
    · rw [if_pos hc]
      exact good_updateBin hg (fun b hb => (hgm b).symm ▸ hb)
    · rw [if_neg hc]; exact hg

/-- The design-score exclusion map of `build_binsets` preserves the
binsets invariant. -/
theorem good_design_map (ds : List (LName × ℚ)) (bs : Binsets)
    (hg : (bs.map Prod.fst).Nodup ∧ ∀ p ∈ bs, p.1 ∈ p.2.members) :
    ((bs.map (fun p =>
      if (ds.lookup p.1).getD 0 < epsilon then
        (p.1, { p.2 with disposition := Bin.EXCLUDE })
      else p)).map Prod.fst).Nodup ∧
    ∀ p ∈ bs.map (fun p =>
      if (ds.lookup p.1).getD 0 < epsilon then
        (p.1, { p.2 with disposition := Bin.EXCLUDE })
      else p), p.1 ∈ p.2.members := by
  constructor
  · rw [List.map_map]
    have he : ((fun (p : LName × Bin) => p.1) ∘ (fun p =>
        if (ds.lookup p.1).getD 0 < epsilon then
          (p.1, { p.2 with disposition := Bin.EXCLUDE })
        else p)) = fun p => p.1 := by
      funext p
      by_cases hc : (ds.lookup p.1).getD 0 < epsilon
      · simp [Function.comp, hc]
      · simp [Function.comp, hc]
    rw [show (List.map ((fun (p : LName × Bin) => p.1) ∘ (fun p =>
        if (ds.lookup p.1).getD 0 < epsilon then
          (p.1, { p.2 with disposition := Bin.EXCLUDE })
        else p)) bs) = bs.map (fun p => p.1) from by rw [he]]
    exact hg.1
  · intro p hp
    obtain ⟨q, hq, hqe⟩ := List.mem_map.mp hp
    by_cases hc : (ds.lookup q.1).getD 0 < epsilon
    · rw [if_pos hc] at hqe
      rw [← hqe]
      exact hg.2 q hq
    · rw [if_neg hc] at hqe
      rw [← hqe]
      exact hg.2 q hq

/-- The removal loop of the untyped-obligate pass keeps the obligate name
a member of its own bin. -/
theorem bbUntyped_inner_mem (loci : LocusMap) (lname : LName) :
    ∀ (l : List LName) (b b2 : Bin),
      l.foldlM (fun (b : Bin) lname2 =>
        if lname ≠ lname2 then do
          let maf2 ← loci.lookup lname2
          b.remove lname2 maf2
        else some b) b = some b2 →
      lname ∈ b.members → lname ∈ b2.members := by
  intro l
  induction l with
  | nil =>
    intro b b2 h hm
    rw [List.foldlM_nil] at h
    cases h
    exact hm
  | cons x tl ih =>
    intro b b2 h hm
    rw [List.foldlM_cons] at h
    by_cases hx : lname ≠ x
    · rw [if_pos hx] at h
      cases hl : loci.lookup x with
      | none =>
        rw [hl] at h
        simp at h
      | some maf2 =>
        rw [hl] at h
        simp only [Option.bind_eq_bind, Option.some_bind] at h
        cases hr : b.remove x maf2 with
        | none => rw [hr] at h; simp at h
        | some b1 =>
          rw [hr] at h
          simp only [Option.bind_eq_bind, Option.some_bind] at h
          apply ih _ b2 h
          unfold Bin.remove at hr
          by_cases hmem : x ∈ b.members
          · rw [if_pos hmem] at hr
            injection hr with hr
            rw [← hr]
            exact (List.mem_erase_of_ne hx).mpr hm
          · rw [if_neg hmem] at hr
            exact Option.noConfusion hr
    · rw [if_neg hx] at h
      simp only [Option.bind_eq_bind, Option.some_bind] at h
      exact ih _ b2 h hm

/-- One step of the untyped-obligate pass preserves the binsets
invariant. -/
theorem bbUStep_good {loci : LocusMap} {u : List LName} {bs bso : Binsets}
    {lname : LName} (h : bbUStep loci u bs lname = some bso)
    (hg : (bs.map Prod.fst).Nodup ∧ ∀ p ∈ bs, p.1 ∈ p.2.members) :
    (bso.map Prod.fst).Nodup ∧ ∀ p ∈ bso, p.1 ∈ p.2.members := by
  unfold bbUStep at h
  cases hl : bs.lookup lname with
  | none =>
    rw [hl] at h
    dsimp only at h
    injection h with h2
    rw [← h2]
    exact hg
  | some bin0 =>
    rw [hl] at h
    dsimp only at h
    simp only [Option.bind_eq_bind, Option.bind_eq_some] at h
    obtain ⟨bin2, hin, h2⟩ := h
    injection h2 with h2
    rw [← h2]
    have hx0 : lname ∈ bin0.members := hg.2 (lname, bin0) (lookup_mem hl)
    have hx2 : lname ∈ bin2.members :=
      bbUntyped_inner_mem loci lname _ _ bin2 hin hx0
    exact good_updateBin hg (fun b _ => hx2)

/-- The untyped-obligate pass of `build_binsets` preserves the binsets
invariant. -/
theorem bbUntyped_good (loci : LocusMap) (u : List LName) :
    ∀ (names : List LName) (bs bs2 : Binsets),
      names.foldlM (bbUStep loci u) bs = some bs2 →
      (bs.map Prod.fst).Nodup ∧ (∀ p ∈ bs, p.1 ∈ p.2.members) →
      (bs2.map Prod.fst).Nodup ∧ ∀ p ∈ bs2, p.1 ∈ p.2.members := by
  intro names
  induction names with
  | nil =>
    intro bs bs2 h hg
    rw [List.foldlM_nil] at h
    cases h
    exact hg
  | cons x tl ih =>
    intro bs bs2 h hg
    rw [List.foldlM_cons] at h
    simp only [Option.bind_eq_bind, Option.bind_eq_some] at h
    obtain ⟨bs1, hstep, hrest⟩ := h
    exact ih bs1 bs2 hrest (bbUStep_good hstep hg)

/-- `build_binsets` yields a binsets dict with duplicate-free keys in
which every candidate bin contains the name it is stored under. -/
theorem build_binsets_good {loci : LocusMap}
    {ldpairs : List (List (LName × LName × ℚ × ℚ))} {includes : Includes}
    {exclude : List LName} {ds : List (LName × ℚ)} {bs : Binsets}
    {ld : LDData} {ex2 : List LName}
    (h : build_binsets loci ldpairs includes exclude ds = some (bs, ld, ex2)) :
    (bs.map Prod.fst).Nodup ∧ ∀ p ∈ bs, p.1 ∈ p.2.members := by
  have houter : ∀ (streams : List (List (LName × LName × ℚ × ℚ)))
      (st st2 : Binsets × LDData),
      streams.foldlM (fun st pairs => pairs.foldlM (bbPair loci) st) st
        = some st2 →
      (st.1.map Prod.fst).Nodup ∧ (∀ p ∈ st.1, p.1 ∈ p.2.members) →
      (st2.1.map Prod.fst).Nodup ∧ ∀ p ∈ st2.1, p.1 ∈ p.2.members := by
    intro streams
    induction streams with
    | nil =>
      intro st st2 hf hg
      rw [List.foldlM_nil] at hf
      cases hf
      exact hg
    | cons pairs tl ih =>
      intro st st2 hf hg
      rw [List.foldlM_cons] at hf
      cases hb : pairs.foldlM (bbPair loci) st with
      | none => rw [hb] at hf; simp at hf
      | some st1 =>
        rw [hb] at hf
        simp only [Option.bind_eq_bind, Option.some_bind] at hf
        exact ih st1 st2 hf (foldlM_bbPair_good loci pairs st st1 hb hg)
  unfold build_binsets at h
  simp only [Option.bind_eq_bind, Option.bind_eq_some] at h
  obtain ⟨st1, hst, h⟩ := h
  obtain ⟨bs5, hbb, h⟩ := h
  have hg1 := houter ldpairs ([], []) st1 hst ⟨List.nodup_nil, by intro p hp; cases hp⟩
  have hg2 := good_singleton_pass loci st1.1 hg1
  have hg3 := good_foldl_mark (fun b => { b with disposition := Bin.EXCLUDE })
    (fun b => rfl) exclude _ hg2
  have hg4 : (((if ds.isEmpty then
      (exclude.foldl (fun bs lname =>
        if (bs.lookup lname).isSome then
          updateBin bs lname (fun b => { b with disposition := Bin.EXCLUDE })
        else bs)
        (loci.foldl (fun bs p =>
          if (bs.lookup p.1).isSome then bs
          else bs ++ [(p.1, Bin.make [p.1] p.2 Bin.NORMAL 0)]) st1.1))
     else
      (exclude.foldl (fun bs lname =>
        if (bs.lookup lname).isSome then
          updateBin bs lname (fun b => { b with disposition := Bin.EXCLUDE })
        else bs)
        (loci.foldl (fun bs p =>
          if (bs.lookup p.1).isSome then bs
          else bs ++ [(p.1, Bin.make [p.1] p.2 Bin.NORMAL 0)]) st1.1)).map
        (fun p =>
          if (ds.lookup p.1).getD 0 < epsilon then
            (p.1, { p.2 with disposition := Bin.EXCLUDE })
          else p)) : Binsets).map Prod.fst).Nodup ∧
      ∀ p ∈ (if ds.isEmpty then
        (exclude.foldl (fun bs lname =>
          if (bs.lookup lname).isSome then
            updateBin bs lname (fun b => { b with disposition := Bin.EXCLUDE })
          else bs)
          (loci.foldl (fun bs p =>
            if (bs.lookup p.1).isSome then bs
            else bs ++ [(p.1, Bin.make [p.1] p.2 Bin.NORMAL 0)]) st1.1))
       else
        (exclude.foldl (fun bs lname =>
          if (bs.lookup lname).isSome then
            updateBin bs lname (fun b => { b with disposition := Bin.EXCLUDE })
          else bs)
          (loci.foldl (fun bs p =>
            if (bs.lookup p.1).isSome then bs
            else bs ++ [(p.1, Bin.make [p.1] p.2 Bin.NORMAL 0)]) st1.1)).map
          (fun p =>
            if (ds.lookup p.1).getD 0 < epsilon then
              (p.1, { p.2 with disposition := Bin.EXCLUDE })
            else p)), p.1 ∈ p.2.members := by
    by_cases hde : ds.isEmpty
    · rw [if_pos hde]; exact hg3
    · rw [if_neg hde]; exact good_design_map ds _ hg3
  have hg5 := bbUntyped_good loci includes.untyped includes.untyped _ bs5 hbb hg4
  have hg6 := good_foldl_mark
    (fun b => { b with disposition := Bin.INCLUDE_TYPED }) (fun b => rfl)
    includes.typed bs5 hg5
  have hbs : bs = includes.typed.foldl (fun bs lname =>
      if (bs.lookup lname).isSome then
        updateBin bs lname (fun b => { b with disposition := Bin.INCLUDE_TYPED })
      else bs) bs5 := by
    have := congrArg (fun x : Binsets × LDData × List LName => x.1)
      (Option.some.injEq _ _ ▸ h)
    simpa using this.symm
  rw [hbs]
  exact hg6

/-- C3: the binsets built by `build_binsets` carry duplicate-free keys,
and for every complete binner run over binsets with duplicate-free keys
the tags and others of the emitted results, taken together, are a
permutation of the loci that entered the binner: no locus is duplicated
and none is omitted. -/
theorem C3_partition (loci : LocusMap) (includes : Includes)
    (get_tags_required : Option (Nat → Nat)) :
    (∀ (ldpairs : List (List (LName × LName × ℚ × ℚ))) (inc2 : Includes)
       (exclude : List LName) (ds : List (LName × ℚ)) (bs : Binsets)
       (ld : LDData) (ex2 : List LName),
      build_binsets loci ldpairs inc2 exclude ds = some (bs, ld, ex2) →
      (bs.map Prod.fst).Nodup) ∧
    (∀ (fuel : Nat) (bs : Binsets) (ld : LDData) (rs : List BinResult),
      (bs.map Prod.fst).Nodup →
      runBinner loci includes get_tags_required fuel bs ld = .done rs →
      ((rs.map (fun r => r.tags ++ r.others)).flatten).Perm
        (bs.map Prod.fst)) :=
  ⟨fun _ _ _ _ _ _ _ h => (build_binsets_good h).1,
   fun fuel bs ld rs hn h =>
     runBinner_partition loci includes get_tags_required fuel bs ld rs hn h⟩

/-- C3 witness: the complete one-locus run emits exactly the one entered
locus. -/
theorem C3_witness :
    (([exampleResult].map (fun r => r.tags ++ r.others)).flatten).Perm
      (exampleBinsets.map Prod.fst) :=
  (C3_partition exampleLoci exampleIncludes none).2 2 exampleBinsets []
    [exampleResult] (by decide) (by decide)

/-- The only exception a MAF lookup raises is `KeyError`. -/
theorem mafOf_error {loci : LocusMap} {k : LName} {e : Err}
    (h : mafOf loci k = .error e) : e = .keyError := by
  unfold mafOf at h
  cases hl : loci.lookup k with
  | none =>
    rw [hl] at h
    injection h with h2
    exact h2.symm
  | some m =>
    rw [hl] at h
    exact Except.noConfusion h

/-- The only exception `dict.pop` raises is `KeyError`. -/
theorem popBin_error {bs : Binsets} {k : LName} {e : Err}
    (h : popBin bs k = .error e) : e = .keyError := by
  unfold popBin at h
  cases hl : bs.lookup k with
  | none =>
    rw [hl] at h
    injection h with h2
    exact h2.symm
  | some b =>
    rw [hl] at h
    exact Except.noConfusion h

/-- The only exception the `can_tag` comprehension raises is `KeyError`. -/
theorem listTags_error {bs : Binsets} {bin : Bin} {e : Err}
    (h : listTags bs bin = .error e) : e = .keyError := by
  unfold listTags at h
  revert h
  have haux : ∀ (l : List LName) (e : Err),
      l.foldr (listTagStep bs bin) (.ok []) = .error e → e = .keyError := by
    intro l
    induction l with
    | nil =>
      intro e h
      exact Except.noConfusion h
    | cons x tl ih =>
      intro e h
      rw [List.foldr_cons] at h
      cases hacc : tl.foldr (listTagStep bs bin) (.ok []) with
      | error e2 =>
        rw [hacc] at h
        unfold listTagStep at h
        rw [exceptBind_error] at h
        injection h with h2
        rw [← h2]
        exact ih e2 hacc
      | ok tlv =>
        rw [hacc] at h
        unfold listTagStep at h
        rw [exceptBind_ok] at h
        cases hl : bs.lookup x with
        | none =>
          rw [hl] at h
          dsimp only at h
          injection h with h2
          exact h2.symm
        | some b =>
          rw [hl] at h
          dsimp only at h
          by_cases hc : can_tag b bin
          · rw [if_pos hc] at h
            exact Except.noConfusion h
          · rw [if_neg hc] at h
            exact Except.noConfusion h
  exact haux bin.members e

/-- The only exception the split-key construction raises is `KeyError`,
and every key names a non-reference bin member. -/
theorem splitKeys_inv {bs : Binsets} {ld : LDData} {ref : LName} {bin : Bin} :
    (∀ e : Err, splitKeys bs ld ref bin = .error e → e = .keyError) ∧
    (∀ l, splitKeys bs ld ref bin = .ok l →
      ∀ x ∈ l, x.2.2 ∈ bin.members ∧ x.2.2 ≠ ref) := by
  unfold splitKeys
  have haux : ∀ (src : List LName), (∀ n ∈ src, n ∈ bin.members ∧ n ≠ ref) →
      (∀ e : Err, src.foldr (splitKeyStep bs ld ref) (.ok []) = .error e →
        e = .keyError) ∧
      (∀ l, src.foldr (splitKeyStep bs ld ref) (.ok []) = .ok l →
        ∀ x ∈ l, x.2.2 ∈ bin.members ∧ x.2.2 ≠ ref) := by
    intro src
    induction src with
    | nil =>
      intro hsrc
      refine ⟨fun e h => Except.noConfusion h, fun l h x hx => ?_⟩
      rw [List.foldr_nil] at h
      injection h with h2
      rw [← h2] at hx
      exact absurd hx (List.not_mem_nil x)
    | cons y tl ih =>
      intro hsrc
      have hy := hsrc y (List.mem_cons_self _ _)
      have htl := ih (fun n hn => hsrc n (List.mem_cons_of_mem _ hn))
      constructor
      · intro e h
        rw [List.foldr_cons] at h
        cases hacc : tl.foldr (splitKeyStep bs ld ref) (.ok []) with
        | error e2 =>
          rw [hacc] at h
          unfold splitKeyStep at h
          rw [exceptBind_error] at h
          injection h with h2
          rw [← h2]
          exact htl.1 e2 hacc
        | ok tlv =>
          rw [hacc] at h
          unfold splitKeyStep at h
          rw [exceptBind_ok] at h
          dsimp only at h
          cases h1 : ld.lookup (ref, y) with
          | some rd =>
            rw [h1] at h
            exact Except.noConfusion h
          | none =>
            rw [h1] at h
            dsimp only at h
            cases h2 : ld.lookup (y, ref) with
            | some rd =>
              rw [h2] at h
              exact Except.noConfusion h
            | none =>
              rw [h2] at h
              injection h with h3
              exact h3.symm
      · intro l h x hx
        rw [List.foldr_cons] at h
        cases hacc : tl.foldr (splitKeyStep bs ld ref) (.ok []) with
        | error e2 =>
          rw [hacc] at h
          unfold splitKeyStep at h
          rw [exceptBind_error] at h
          exact Except.noConfusion h
        | ok tlv =>
          rw [hacc] at h
          unfold splitKeyStep at h
          rw [exceptBind_ok] at h
          dsimp only at h
          cases h1 : ld.lookup (ref, y) with
          | some rd =>
            rw [h1] at h
            injection h with h3
            rw [← h3] at hx
            rcases List.mem_cons.mp hx with rfl | hx2
            · exact hy
            · exact htl.2 tlv hacc x hx2
          | none =>
            rw [h1] at h
            dsimp only at h
            cases h2 : ld.lookup (y, ref) with
            | some rd =>
              rw [h2] at h
              injection h with h3
              rw [← h3] at hx
              rcases List.mem_cons.mp hx with rfl | hx2
              · exact hy
              · exact htl.2 tlv hacc x hx2
            | none =>
              rw [h2] at h
              exact Except.noConfusion h
  apply haux
  intro n hn
  have := List.mem_filter.mp hn
  exact ⟨this.1, bne_iff_ne.mp this.2⟩

/-- Insertion into a sorted key list is a permutation-preserving cons. -/
theorem insertKey_perm (a : Int × ℚ × LName) :
    ∀ (l : List (Int × ℚ × LName)), (insertKey a l).Perm (a :: l) := by
  intro l
  induction l with
  | nil => exact List.Perm.refl _
  | cons b t ih =>
    rw [insertKey]
    by_cases hc : keyLe a b
    · rw [if_pos hc]
    · rw [if_neg hc]
      exact (List.Perm.cons b ih).trans (List.Perm.swap _ _ _)

/-- The split-key sort is a permutation. -/
theorem sortKeys_perm (l : List (Int × ℚ × LName)) :
    (sortKeys l).Perm l := by
  induction l with
  | nil => exact List.Perm.refl _
  | cons a t ih =>
    unfold sortKeys at *
    rw [List.foldr_cons]
    exact (insertKey_perm a _).trans (List.Perm.cons a ih)

/-- The only exceptions `split_bin` raises are `KeyError` and
`IndexError`. -/
theorem split_bin_error {loci : LocusMap} {bs : Binsets} {ld : LDData}
    {ref : LName} {largest : Bin} {e : Err}
    (h : split_bin loci bs ld ref largest = .error e) :
    e = .keyError ∨ e = .indexError := by
  unfold split_bin at h
  cases hk : splitKeys bs ld ref largest with
  | error e2 =>
    rw [hk, exceptBind_error] at h
    injection h with h2
    exact Or.inl (h2 ▸ splitKeys_inv.1 e2 hk)
  | ok l =>
    rw [hk, exceptBind_ok] at h
    cases hs : sortKeys l with
    | nil =>
      rw [hs] at h
      injection h with h2
      exact Or.inr h2.symm
    | cons a t =>
      obtain ⟨c, r, lname2⟩ := a
      rw [hs] at h
      dsimp only at h
      cases hm1 : mafOf loci lname2 with
      | error e2 =>
        rw [hm1, exceptBind_error] at h
        injection h with h2
        exact Or.inl (h2 ▸ mafOf_error hm1)
      | ok maf1 =>
        rw [hm1, exceptBind_ok] at h
        cases hm2 : mafOf loci ref with
        | error e2 =>
          rw [hm2, exceptBind_error] at h
          injection h with h2
          exact Or.inl (h2 ▸ mafOf_error hm2)
        | ok maf2 =>
          rw [hm2, exceptBind_ok] at h
          exact Except.noConfusion h

/-- The only exception `must_split_bin` raises is `KeyError`. -/
theorem must_split_error {bin : Bin} {bs : Binsets}
    {req : Option (Nat → Nat)} {e : Err}
    (h : must_split_bin bin bs req = .error e) : e = .keyError := by
  unfold must_split_bin at h
  cases req with
  | none => exact Except.noConfusion h
  | some f =>
    dsimp only at h
    by_cases h1 : f bin.members.length = 1
    · rw [if_pos h1] at h
      exact Except.noConfusion h
    · rw [if_neg h1] at h
      cases hlt : listTags bs bin with
      | error e2 =>
        rw [hlt, exceptBind_error] at h
        injection h with h2
        exact h2 ▸ listTags_error hlt
      | ok tags =>
        rw [hlt, exceptBind_ok] at h
        exact Except.noConfusion h

/-- The only exception the withdrawal loop raises is `KeyError`. -/
theorem popLoop_error (loci : LocusMap) (largest : List LName) :
    ∀ (names : List LName) (bs : Binsets) (e : Err),
      popLoop loci largest names bs = .error e → e = .keyError := by
  intro names
  induction names with
  | nil =>
    intro bs e h
    rw [popLoop] at h
    exact Except.noConfusion h
  | cons lname rest ih =>
    intro bs e h
    rw [popLoop] at h
    cases hp : popBin bs lname with
    | error e2 =>
      rw [hp, exceptBind_error] at h
      injection h with h2
      exact h2 ▸ popBin_error hp
    | ok pr =>
      obtain ⟨bin, bs1⟩ := pr
      rw [hp, exceptBind_ok] at h
      dsimp only at h
      cases hm : mafOf loci lname with
      | error e2 =>
        rw [hm, exceptBind_error] at h
        injection h with h2
        exact h2 ▸ mafOf_error hm
      | ok maf =>
        rw [hm, exceptBind_ok] at h
        cases hr : popLoop loci largest rest
            ((bin.members.filter (fun x => decide (x ∉ largest))).foldl
              (fun acc lname2 => reduce_bin acc lname2 lname maf) bs1) with
        | error e2 =>
          rw [hr, exceptBind_error] at h
          injection h with h2
          exact h2 ▸ ih _ e2 hr
        | ok pr2 =>
          obtain ⟨bins2, bs3x⟩ := pr2
          rw [hr, exceptBind_ok] at h
          exact Except.noConfusion h

/-- Updating one key leaves the lookups of every other key unchanged. -/
theorem lookup_updateBin_ne {bs : Binsets} {j k : LName} (h : j ≠ k)
    (f : Bin → Bin) : (updateBin bs k f).lookup j = bs.lookup j := by
  induction bs with
  | nil => rfl
  | cons p rest ih =>
    obtain ⟨k1, b1⟩ := p
    show (((if k1 = k then (k1, f b1) else (k1, b1)) ::
      updateBin rest k f).lookup j) = _
    by_cases hp : k1 = k
    · rw [if_pos hp, lookup_cons', lookup_cons',
        if_neg (fun he => h (he.trans hp)),
        if_neg (fun he => h (he.trans hp)), ih]
    · rw [if_neg hp, lookup_cons', lookup_cons']
      by_cases hj : j = k1
      · rw [if_pos hj, if_pos hj]
      · rw [if_neg hj, if_neg hj, ih]

/-- `reduce_bin` leaves the lookups of every other key unchanged. -/
theorem lookup_reduce_bin_ne {bs : Binsets} {j o : LName} (h : j ≠ o)
    (t : LName) (m : ℚ) : (reduce_bin bs o t m).lookup j = bs.lookup j := by
  unfold reduce_bin
  by_cases hc : (bs.lookup o).isSome
  · rw [if_pos hc]
    exact lookup_updateBin_ne h _
  · rw [if_neg hc]

/-- A fold of `reduce_bin` steps over keys avoiding `k` leaves the lookup
of `k` unchanged. -/
theorem lookup_foldl_reduce_notin (t : LName) (m : ℚ) :
    ∀ (l : List LName) (bs : Binsets) (k : LName), k ∉ l →
      ((l.foldl (fun acc x => reduce_bin acc x t m) bs).lookup k)
        = bs.lookup k := by
  intro l
  induction l with
  | nil => intro bs k _; rfl
  | cons x rest ih =>
    intro bs k hk
    rw [List.foldl_cons, ih _ _ (fun hm => hk (List.mem_cons_of_mem _ hm)),
      lookup_reduce_bin_ne (fun he : k = x =>
        hk (by rw [he]; exact List.mem_cons_self _ _)) _ _]

/-- The bins withdrawn by the pop loop are the selected bin's members in
order, each carrying exactly the candidate bin stored for it in the
binsets dict at selection time. -/
theorem popLoop_lookup (loci : LocusMap) (largest : List LName) :
    ∀ (names : List LName) (bs : Binsets) (bins : List (LName × Bin))
      (bs3 : Binsets),
      (∀ n ∈ names, n ∈ largest) →
      popLoop loci largest names bs = .ok (bins, bs3) →
      bins.map Prod.fst = names ∧ ∀ p ∈ bins, bs.lookup p.1 = some p.2 := by
  intro names
  induction names with
  | nil =>
    intro bs bins bs3 _ h
    rw [popLoop] at h
    injection h with h2
    rw [Prod.mk.injEq] at h2
    rw [← h2.1]
    exact ⟨rfl, fun p hp => absurd hp (List.not_mem_nil p)⟩
  | cons lname rest ih =>
    intro bs bins bs3 hsub h
    obtain ⟨bin, bs1, maf, bins2, hp, _, hr, hbins⟩ := popLoop_cons_ok h
    obtain ⟨hlook, hbs1⟩ := popBin_ok hp
    obtain ⟨hfst2, hlook2⟩ := ih _ bins2 bs3
      (fun n hn => hsub n (List.mem_cons_of_mem _ hn)) hr
    refine ⟨by rw [hbins, List.map_cons, hfst2], ?_⟩
    intro p hp2
    rw [hbins] at hp2
    rcases List.mem_cons.mp hp2 with rfl | hp3
    · exact hlook
    · have hpl : p.1 ∈ largest := by
        have hm : p.1 ∈ bins2.map Prod.fst := List.mem_map_of_mem _ hp3
        rw [hfst2] at hm
        exact hsub p.1 (List.mem_cons_of_mem _ hm)
      have h2 := hlook2 p hp3
      have hnot : p.1 ∉ bin.members.filter (fun x => decide (x ∉ largest)) :=
        fun hmem => (of_decide_eq_true (List.mem_filter.mp hmem).2) hpl
      rw [lookup_foldl_reduce_notin lname maf _ bs1 p.1 hnot] at h2
      rw [hbs1] at h2
      by_cases hje : p.1 = lname
      · rw [hje, lookup_filter_self] at h2
        exact Option.noConfusion h2
      · rw [lookup_filter_ne hje] at h2
        exact h2

/-- `reduce_bin` preserves the binsets invariant whenever the updated key
differs from the discarded member. -/
theorem good_reduce_bin {bs : Binsets} {o t : LName} {m : ℚ} (hne : o ≠ t)
    (hg : (bs.map Prod.fst).Nodup ∧ ∀ p ∈ bs, p.1 ∈ p.2.members) :
    ((reduce_bin bs o t m).map Prod.fst).Nodup ∧
    ∀ p ∈ reduce_bin bs o t m, p.1 ∈ p.2.members := by
  unfold reduce_bin
  by_cases hc : (bs.lookup o).isSome
  · rw [if_pos hc]
    apply good_updateBin hg
    intro b hb
    unfold Bin.discard
    by_cases hm : t ∈ b.members
    · rw [if_pos hm]
      exact (List.mem_erase_of_ne hne).mpr hb
    · rw [if_neg hm]
      exact hb
  · rw [if_neg hc]
    exact hg

/-- The withdrawal loop preserves the binsets invariant. -/
theorem popLoop_good (loci : LocusMap) (largest : List LName) :
    ∀ (names : List LName) (bs : Binsets) (bins : List (LName × Bin))
      (bs3 : Binsets),
      (∀ n ∈ names, n ∈ largest) →
      popLoop loci largest names bs = .ok (bins, bs3) →
      ((bs.map Prod.fst).Nodup ∧ ∀ p ∈ bs, p.1 ∈ p.2.members) →
      (bs3.map Prod.fst).Nodup ∧ ∀ p ∈ bs3, p.1 ∈ p.2.members := by
  intro names
  induction names with
  | nil =>
    intro bs bins bs3 _ h hg
    rw [popLoop] at h
    injection h with h2
    rw [Prod.mk.injEq] at h2
    rw [← h2.2]
    exact hg
  | cons lname rest ih =>
    intro bs bins bs3 hsub h hg
    obtain ⟨bin, bs1, maf, bins2, hp, _, hr, hbins⟩ := popLoop_cons_ok h
    obtain ⟨hlook, hbs1⟩ := popBin_ok hp
    apply ih _ bins2 bs3 (fun n hn => hsub n (List.mem_cons_of_mem _ hn)) hr
    have hg1 : ((bs1.map Prod.fst).Nodup ∧ ∀ p ∈ bs1, p.1 ∈ p.2.members) := by
      rw [hbs1]
      refine ⟨by rw [keys_filter]; exact hg.1.filter _, ?_⟩
      intro p hp2
      exact hg.2 p (List.mem_of_mem_filter hp2)
    have hfold : ∀ (l : List LName) (bsx : Binsets), (∀ x ∈ l, x ≠ lname) →
        ((bsx.map Prod.fst).Nodup ∧ ∀ p ∈ bsx, p.1 ∈ p.2.members) →
        (((l.foldl (fun acc lname2 => reduce_bin acc lname2 lname maf)
          bsx).map Prod.fst).Nodup ∧
        ∀ p ∈ l.foldl (fun acc lname2 => reduce_bin acc lname2 lname maf) bsx,
          p.1 ∈ p.2.members) := by
      intro l
      induction l with
      | nil => intro bsx _ hgx; exact hgx
      | cons y t ihf =>
        intro bsx hne hgx
        rw [List.foldl_cons]
        apply ihf _ (fun x hx => hne x (List.mem_cons_of_mem _ hx))
        exact good_reduce_bin (hne y (List.mem_cons_self _ _)) hgx
    apply hfold
    · intro x hx
      have hxl := of_decide_eq_true (List.mem_filter.mp hx).2
      exact fun he => hxl (he ▸ hsub lname (List.mem_cons_self _ _))
    · exact hg1

/-- `split_bin` preserves the binsets invariant. -/
theorem split_bin_good {loci : LocusMap} {bs : Binsets} {ld : LDData}
    {ref : LName} {largest : Bin} {bs2 : Binsets}
    (h : split_bin loci bs ld ref largest = .ok bs2)
    (hg : (bs.map Prod.fst).Nodup ∧ ∀ p ∈ bs, p.1 ∈ p.2.members) :
    (bs2.map Prod.fst).Nodup ∧ ∀ p ∈ bs2, p.1 ∈ p.2.members := by
  unfold split_bin at h
  cases hk : splitKeys bs ld ref largest with
  | error e =>
    rw [hk, exceptBind_error] at h
    exact Except.noConfusion h
  | ok l =>
    rw [hk, exceptBind_ok] at h
    cases hs : sortKeys l with
    | nil =>
      rw [hs] at h
      exact Except.noConfusion h
    | cons a t =>
      obtain ⟨c, r, lname2⟩ := a
      rw [hs] at h
      dsimp only at h
      cases hm1 : mafOf loci lname2 with
      | error e =>
        rw [hm1, exceptBind_error] at h
        exact Except.noConfusion h
      | ok maf1 =>
        rw [hm1, exceptBind_ok] at h
        cases hm2 : mafOf loci ref with
        | error e =>
          rw [hm2, exceptBind_error] at h
          exact Except.noConfusion h
        | ok maf2 =>
          rw [hm2, exceptBind_ok] at h
          injection h with h2
          rw [← h2]
          have hmem : (c, r, lname2) ∈ sortKeys l := by
            rw [hs]
            exact List.mem_cons_self _ _
          have hmem2 : (c, r, lname2) ∈ l := (sortKeys_perm l).mem_iff.mp hmem
          have hne : lname2 ≠ ref := (splitKeys_inv.2 l hk (c, r, lname2) hmem2).2
          exact good_reduce_bin hne
            (good_reduce_bin (fun he => hne he.symm) hg)

/-- When every popped bin is the one stored at selection time, the
`can_tag` comprehension of `must_split_bin` computes exactly the tag names
of the later `build_result` partition. -/
theorem listTags_eq {bs : Binsets} {largest : Bin} {bins : List (LName × Bin)}
    (hm : largest.members = bins.map Prod.fst)
    (hlook : ∀ p ∈ bins, bs.lookup p.1 = some p.2) :
    listTags bs largest
      = .ok ((bins.filter (fun p => decide (can_tag p.2 largest))).map
          Prod.fst) := by
  have haux : ∀ (l : List (LName × Bin)),
      (∀ p ∈ l, bs.lookup p.1 = some p.2) →
      ((l.map Prod.fst).foldr (listTagStep bs largest) (.ok []))
        = .ok ((l.filter (fun p => decide (can_tag p.2 largest))).map
            Prod.fst) := by
    intro l
    induction l with
    | nil => intro _; rfl
    | cons q tl ih =>
      intro hlk
      rw [List.map_cons, List.foldr_cons,
        ih (fun p hp => hlk p (List.mem_cons_of_mem _ hp))]
      unfold listTagStep
      rw [exceptBind_ok, hlk q (List.mem_cons_self _ _)]
      dsimp only
      rw [List.filter_cons]
      by_cases hc : can_tag q.2 largest
      · rw [if_pos hc, if_pos (decide_eq_true hc), List.map_cons]
      · rw [if_neg hc, if_neg (by simpa using hc)]
  unfold listTags
  rw [hm]
  exact haux bins hlook

/-- Inversion of a non-splitting `must_split_bin` verdict under a
`tags_required` policy. -/
theorem must_split_false {bin : Bin} {bs : Binsets} {f : ℕ → ℕ}
    (h : must_split_bin bin bs (some f) = .ok false) :
    f bin.members.length = 1 ∨
    ∃ tags, listTags bs bin = .ok tags ∧
      ¬(tags.length < f bin.members.length ∧
        f bin.members.length ≤ bin.members.length) := by
  unfold must_split_bin at h
  dsimp only at h
  by_cases h1 : f bin.members.length = 1
  · exact Or.inl h1
  · rw [if_neg h1] at h
    cases hlt : listTags bs bin with
    | error e =>
      rw [hlt, exceptBind_error] at h
      exact Except.noConfusion h
    | ok tags =>
      rw [hlt, exceptBind_ok] at h
      injection h with h2
      exact Or.inr ⟨tags, rfl, of_decide_eq_false h2⟩

/-- Inversion of a failed `build_result`: the exception is the
`ZeroDivisionError` of an empty bin or the `AssertionError` of a tag
shortfall. -/
theorem build_result_error {lname : LName} {largest : Bin}
    {bins : List (LName × Bin)} {lddata : LDData} {includes : Includes}
    {req : Option (Nat → Nat)} {e : Err}
    (h : build_result lname largest bins lddata includes req = .error e) :
    e = .zeroDivision ∨
    (e = .assertFail ∧ largest.members.length ≠ 0 ∧
      (buildTags largest bins).1.length
        < req.elim 1 (fun f => f largest.members.length)) := by
  unfold build_result at h
  dsimp only at h
  split at h
  next h0 =>
    injection h with h2
    exact Or.inl h2.symm
  next h0 =>
    split at h
    next h1 =>
      injection h with h2
      refine Or.inr ⟨h2.symm, h0, ?_⟩
      cases req with
      | none => exact h1
      | some f => exact h1
    next h1 => exact Except.noConfusion h

/-- With a `tags_required` policy never demanding more tags than the bin
has members, the binner never raises the `build_result` assertion
`len(result.tags) >= result.tags_required` from binsets satisfying the
binsets invariant. -/
theorem runBinner_no_assert (loci : LocusMap) (includes : Includes)
    (f : ℕ → ℕ) (hreq : ∀ n, 1 ≤ n → f n ≤ n) :
    ∀ (fuel : Nat) (bs : Binsets) (ld : LDData) (rs : List BinResult),
      ((bs.map Prod.fst).Nodup ∧ ∀ p ∈ bs, p.1 ∈ p.2.members) →
      runBinner loci includes (some f) fuel bs ld ≠ .err .assertFail rs := by
  intro fuel
  induction fuel with
  | zero =>
    intro bs ld rs _ h
    rw [runBinner] at h
    by_cases he : bs.isEmpty
    · rw [if_pos he] at h
      exact RunOut.noConfusion h
    · rw [if_neg he] at h
      exact RunOut.noConfusion h
  | succ fuel ih =>
    intro bs ld rs hg h
    rw [runBinner] at h
    cases hpk : peek bs with
    | none =>
      rw [hpk] at h
      dsimp only at h
      exact RunOut.noConfusion h
    | some ref =>
      rw [hpk] at h
      dsimp only at h
      cases hlk : bs.lookup ref with
      | none =>
        rw [hlk] at h
        dsimp only at h
        injection h with h1 h2
        exact Err.noConfusion h1
      | some largest =>
        rw [hlk] at h
        dsimp only at h
        cases hms : must_split_bin largest bs (some f) with
        | error e =>
          rw [hms] at h
          dsimp only at h
          injection h with h1 h2
          rw [must_split_error hms] at h1
          exact Err.noConfusion h1
        | ok b =>
          rw [hms] at h
          cases b with
          | true =>
            dsimp only at h
            cases hsp : split_bin loci bs ld ref largest with
            | error e =>
              rw [hsp] at h
              dsimp only at h
              injection h with h1 h2
              rcases split_bin_error hsp with he | he <;>
                (rw [he] at h1; exact Err.noConfusion h1)
            | ok bs2 =>
              rw [hsp] at h
              dsimp only at h
              exact ih bs2 ld rs (split_bin_good hsp hg) h
          | false =>
            dsimp only at h
            cases hpl : popLoop loci largest.members largest.members bs with
            | error e =>
              rw [hpl] at h
              dsimp only at h
              injection h with h1 h2
              rw [popLoop_error loci largest.members largest.members bs e hpl]
                at h1
              exact Err.noConfusion h1
            | ok pr =>
              obtain ⟨bins, bs2⟩ := pr
              rw [hpl] at h
              dsimp only at h
              cases hbr : build_result ref largest bins ld includes (some f) with
              | error e =>
                rw [hbr] at h
                dsimp only at h
                injection h with h1 h2
                rcases build_result_error hbr with he0 | ⟨he0, hlen0, hltlen⟩
                · rw [he0] at h1
                  exact Err.noConfusion h1
                · exfalso
                  obtain ⟨hbfst, hblook⟩ :=
                    popLoop_lookup loci largest.members largest.members bs
                      bins bs2 (fun n hn => hn) hpl
                  have hlt_eq := listTags_eq hbfst.symm hblook
                  have hltlen2 : (buildTags largest bins).1.length
                      < f largest.members.length := hltlen
                  have htags_len := buildTags_tags largest bins
                  have hlen1 : 1 ≤ largest.members.length :=
                    Nat.one_le_iff_ne_zero.mpr hlen0
                  rcases must_split_false hms with h1eq | ⟨tags, htags, hnot⟩
                  · rw [h1eq] at hltlen2
                    have href : ref ∈ largest.members :=
                      hg.2 (ref, largest) (lookup_mem hlk)
                    rw [← hbfst] at href
                    obtain ⟨p, hpbins, hpref⟩ := List.mem_map.mp href
                    have hpl2 := hblook p hpbins
                    rw [hpref, hlk] at hpl2
                    injection hpl2 with hpl2
                    have hct : can_tag p.2 largest := by
                      rw [← hpl2]
                      refine ⟨?_, fun x hx => hx⟩
                      by_cases hd : largest.disposition = Bin.EXCLUDE
                      · exact Or.inr hd
                      · exact Or.inl hd
                    have hpf : p ∈ bins.filter
                        (fun p => decide (can_tag p.2 largest)) :=
                      List.mem_filter.mpr ⟨hpbins, decide_eq_true hct⟩
                    have hpos : 0 < ((bins.filter
                        (fun p => decide (can_tag p.2 largest))).map
                        Prod.fst).length := by
                      rw [List.length_map]
                      exact List.length_pos.mpr (List.ne_nil_of_mem hpf)
                    rw [htags_len] at hltlen2
                    exact (Nat.pos_iff_ne_zero.mp hpos)
                      (Nat.lt_one_iff.mp hltlen2)
                  · have hfle : f largest.members.length
                        ≤ largest.members.length := hreq _ hlen1
                    have htlen : f largest.members.length ≤ tags.length := by
                      by_contra hcon
                      push_neg at hcon
                      exact hnot ⟨hcon, hfle⟩
                    rw [hlt_eq] at htags
                    injection htags with hte
                    rw [htags_len, hte] at hltlen2
                    exact absurd hltlen2 (Nat.not_lt.mpr htlen)
              | ok pr2 =>
                obtain ⟨result, ld2⟩ := pr2
                rw [hbr] at h
                dsimp only at h
                cases hrec : runBinner loci includes (some f) fuel bs2 ld2 with
                | done rs2 =>
                  rw [hrec] at h
                  dsimp only at h
                  exact RunOut.noConfusion h
                | fuelOut rs2 =>
                  rw [hrec] at h
                  dsimp only at h
                  exact RunOut.noConfusion h
                | err e rs2 =>
                  rw [hrec] at h
                  dsimp only at h
                  injection h with h1 h2
                  have hg2 := popLoop_good loci largest.members
                    largest.members bs bins bs2 (fun n hn => hn) hpl hg
                  exact ih bs2 ld2 rs2 hg2 (by rw [← h1]; exact hrec)

/-- At base `√2`, the `--loglocipertag` policy demands two tags of a
singleton bin. -/
theorem logLociPerTagReq_sqrt2_one : logLociPerTagReq (Real.sqrt 2) 1 = 2 := by
  unfold logLociPerTagReq
  have h2 : Real.log (Real.sqrt 2) = Real.log 2 / 2 :=
    Real.log_sqrt (by norm_num)
  have h1 : ((1 : ℕ) : ℝ) + 1 = 2 := by norm_num
  rw [h2, h1]
  have hl : Real.log 2 ≠ 0 := ne_of_gt (Real.log_pos (by norm_num))
  have h3 : Real.log 2 / (Real.log 2 / 2) = 2 := by
    field_simp
  rw [h3]
  norm_num
  rfl

/-- Any `tags_required` policy demanding two tags of a singleton bin
drives the one-locus run into the `build_result` assertion. -/
theorem runBinner_singleton_assert (f : ℕ → ℕ) (hf : f 1 = 2) :
    runBinner exampleLoci exampleIncludes (some f) 2 exampleBinsets []
      = .err .assertFail [] := by
  have hms : must_split_bin (Bin.make ["rs1"] (1/10) Bin.NORMAL 0)
      exampleBinsets (some f) = .ok false := by
    unfold must_split_bin
    dsimp only
    rw [show (Bin.make ["rs1"] (1/10) Bin.NORMAL 0).members.length = 1 from
      rfl, hf]
    rfl
  have hbr : build_result "rs1" (Bin.make ["rs1"] (1/10) Bin.NORMAL 0)
      [("rs1", Bin.make ["rs1"] (1/10) Bin.NORMAL 0)] [] exampleIncludes
      (some f) = .error .assertFail := by
    unfold build_result
    dsimp only
    rw [show (Bin.make ["rs1"] (1/10) Bin.NORMAL 0).members.length = 1 from
      rfl, hf]
    rfl
  show runBinner exampleLoci exampleIncludes (some f) (1 + 1) exampleBinsets []
    = .err .assertFail []
  rw [runBinner]
  rw [show peek exampleBinsets = some "rs1" from rfl]
  dsimp only
  rw [show List.lookup "rs1" exampleBinsets
    = some (Bin.make ["rs1"] (1/10) Bin.NORMAL 0) from rfl]
  dsimp only
  rw [hms]
  dsimp only
  rw [show popLoop exampleLoci (Bin.make ["rs1"] (1/10) Bin.NORMAL 0).members
      (Bin.make ["rs1"] (1/10) Bin.NORMAL 0).members exampleBinsets
    = Except.ok ([("rs1", Bin.make ["rs1"] (1/10) Bin.NORMAL 0)],
        ([] : Binsets)) from rfl]
  dsimp only
  rw [hbr]

/-- C1 (corrected): binsets built by `build_binsets` satisfy the binsets
invariant; every `BinResult` that `build_result` emits carries at least
`tags_required` tags, each of which is a popped member whose own candidate
bin at selection time can tag the emitted bin; and the assertion
`len(result.tags) >= result.tags_required` never fails in any reachable
binner state — provided the `tags_required` policy never demands more tags
than the bin has members (`f n ≤ n` for `n ≥ 1`).  As stated, over every
policy of section 4.5, the claim is false: see the counterexample, where
the `--loglocipertag` policy at base `√2` demands two tags of a singleton
bin and the assertion fails. -/
theorem C1_assert_safe (loci : LocusMap) (includes : Includes) (f : ℕ → ℕ)
    (hreq : ∀ n, 1 ≤ n → f n ≤ n) :
    (∀ (ldpairs : List (List (LName × LName × ℚ × ℚ))) (inc2 : Includes)
       (exclude : List LName) (ds : List (LName × ℚ)) (bs : Binsets)
       (ld : LDData) (ex2 : List LName),
      build_binsets loci ldpairs inc2 exclude ds = some (bs, ld, ex2) →
      (bs.map Prod.fst).Nodup ∧ ∀ p ∈ bs, p.1 ∈ p.2.members) ∧
    (∀ (lname : LName) (largest : Bin) (bins : List (LName × Bin))
       (lddata : LDData) (inc2 : Includes) (req : Option (Nat → Nat))
       (result : BinResult) (ld2 : LDData),
      build_result lname largest bins lddata inc2 req = .ok (result, ld2) →
      result.tags_required ≤ result.tags.length ∧
      result.tags = (bins.filter (fun p => decide (can_tag p.2 largest))).map
        Prod.fst) ∧
    (∀ (fuel : Nat) (bs : Binsets) (ld : LDData) (rs : List BinResult),
      ((bs.map Prod.fst).Nodup ∧ ∀ p ∈ bs, p.1 ∈ p.2.members) →
      runBinner loci includes (some f) fuel bs ld ≠ .err .assertFail rs) := by
  refine ⟨fun _ _ _ _ _ _ _ h => build_binsets_good h, ?_,
    fun fuel bs ld rs hg =>
      runBinner_no_assert loci includes f hreq fuel bs ld rs hg⟩
  intro lname largest bins lddata inc2 req result ld2 h
  obtain ⟨ht, -, -, hle, -⟩ := build_result_ok h
  exact ⟨hle, by rw [ht]; exact buildTags_tags largest bins⟩

/-- C1 witness: the `--locipertag 2` policy on the one-locus run never
trips the assertion. -/
theorem C1_witness :
    runBinner exampleLoci exampleIncludes (some (lociPerTagReq 2)) 2
      exampleBinsets [] ≠ .err .assertFail [] :=
  (C1_assert_safe exampleLoci exampleIncludes (lociPerTagReq 2)
    (fun n _ => min_le_right _ _)).2.2 2 exampleBinsets [] []
    ⟨by decide, by decide⟩

/-- C1 counterexample: under the section-4.5 policy `--loglocipertag √2`,
the binner raises `AssertionError` from the binsets built for a single
locus, so the claim fails for an admissible `tags_required` function. -/
theorem C1_counterexample :
    runBinner exampleLoci exampleIncludes
      (some (logLociPerTagReq (Real.sqrt 2))) 2 exampleBinsets []
      = .err .assertFail [] :=
  runBinner_singleton_assert _ logLociPerTagReq_sqrt2_one

end Tagzilla
